import Mathlib

/-!
Verification of the mesh / task-scheduler core of the Athena++ snapshot
(`src/unnamed/part_001`, `mesh.cpp`): the per-block task scheduler
(`MeshBlock::DoOneTask`, `Mesh::UpdateOneStep`), the greedy load-balance
partitioner and the `nslist`/`nblist` derivation in the two `Mesh`
constructors, `Mesh::NewTimeStep`, and the per-face neighbor wiring.

Machine `Real` values (costs, time steps) are modelled as exact rationals;
the machine `int`/`long int` counters and bitmasks are modelled as `Nat`
(the code only ever forms the masks by or-ing task bits, and the scheduler
loop is entered only with `ntodo >= 1`, so `Nat` subtraction agrees with
the `int` arithmetic on all reachable states).
-/

/-- A scheduler task, as in `struct MBTask` of `tasklist.hpp` (as used by
`MeshBlock::DoOneTask`): a bit identifier `taskid` and a dependency
bitmask `depend`.  The operation pointer `TaskFunc` is kept outside the
structure and passed to the scheduler as an oracle, since its result
depends on the outside world (in-flight boundary exchange). -/
structure MBTask where
  taskid : Nat
  depend : Nat
deriving DecidableEq, Repr

/-- `enum tlstatus` of `tasklist.hpp`: the result of one `DoOneTask` call. -/
inductive Tlstatus where
  | nothing
  | running
  | complete
  | stuck
deriving DecidableEq, Repr

/-- The scheduler state a `MeshBlock` carries between `DoOneTask` calls:
the completed-task bitmask `task_flag`, the outstanding-task counter
`ntodo` and the first-incomplete cursor `firsttask`. -/
structure TSState where
  task_flag : Nat
  ntodo : Nat
  firsttask : Nat
deriving DecidableEq, Repr

/-- Result of one `MeshBlock::DoOneTask` call: the returned `tlstatus`,
the updated mutable members, and (instrumentation) the list of task
indices whose `TaskFunc` operation was invoked during the scan. -/
structure TLResult where
  status : Tlstatus
  task_flag : Nat
  ntodo : Nat
  firsttask : Nat
  invoked : List Nat
deriving DecidableEq, Repr

/-- The scan loop of `MeshBlock::DoOneTask` (part_001 lines 1615-1636),
over the task-array suffix starting at absolute index `i`.  `tf i fl`
is the result of `ti.TaskFunc(this, ti.task_arg)` for task `i` when the
completed mask is `fl` (the mask is unchanged until the call returns, so
this is the one oracle value the call can observe). -/
def doTaskLoop (tf : Nat → Nat → Bool) (fl nt : Nat) :
    List MBTask → Nat → Nat → Nat → TLResult
  | [], _, _, ft => ⟨Tlstatus.stuck, fl, nt, ft, []⟩
  | t :: rest, i, skip, ft =>
    if t.taskid &&& fl = 0 then
      if t.depend &&& fl = t.depend then
        if tf i fl then
          ⟨if nt - 1 = 0 then Tlstatus.complete else Tlstatus.running,
            fl ||| t.taskid, nt - 1, if skip = 0 then ft + 1 else ft, [i]⟩
        else
          let r := doTaskLoop tf fl nt rest (i + 1) (skip + 1) ft
          ⟨r.status, r.task_flag, r.ntodo, r.firsttask, i :: r.invoked⟩
      else doTaskLoop tf fl nt rest (i + 1) (skip + 1) ft
    else
      if skip = 0 then doTaskLoop tf fl nt rest (i + 1) skip (ft + 1)
      else doTaskLoop tf fl nt rest (i + 1) skip ft

/-- `MeshBlock::DoOneTask` (part_001 lines 1610-1637): return `nothing`
when no task is outstanding, otherwise scan from the cached
first-incomplete cursor. -/
def DoOneTask (tf : Nat → Nat → Bool) (tasks : List MBTask) (s : TSState) : TLResult :=
  if s.ntodo = 0 then ⟨Tlstatus.nothing, s.task_flag, s.ntodo, s.firsttask, []⟩
  else doTaskLoop tf s.task_flag s.ntodo (tasks.drop s.firsttask) s.firsttask 0 s.firsttask

/-- The state part of a `DoOneTask` result. -/
def stateOf (r : TLResult) : TSState := ⟨r.task_flag, r.ntodo, r.firsttask⟩

/-- The per-round reset performed by `Mesh::UpdateOneStep`
(part_001 lines 1554-1560): `firsttask=0`, `ntodo=ntask`, `task_flag=0`. -/
def resetState (tasks : List MBTask) : TSState := ⟨0, tasks.length, 0⟩

/-- The scheduler state after `k` calls of `DoOneTask` starting from the
reset state.  `tfs k i fl` is the `TaskFunc` oracle for task `i` during
call `k`. -/
def runTasks (tfs : Nat → Nat → Nat → Bool) (tasks : List MBTask) : Nat → TSState
  | 0 => resetState tasks
  | k + 1 => stateOf (DoOneTask (tfs k) tasks (runTasks tfs tasks k))

/-- The full result of call `k` (0-based) in the iterated run. -/
def callResult (tfs : Nat → Nat → Nat → Bool) (tasks : List MBTask) (k : Nat) : TLResult :=
  DoOneTask (tfs k) tasks (runTasks tfs tasks k)

/-- The task stored at index `i` (in-bounds access in the code). -/
def taskAt (tasks : List MBTask) (i : Nat) : MBTask := tasks.getD i ⟨0, 0⟩

/-- The or of all task bit identifiers of a task list. -/
def orAllTaskid (tasks : List MBTask) : Nat :=
  tasks.foldr (fun t a => t.taskid ||| a) 0

/-- One sweep of the main loop of `Mesh::UpdateOneStep` (part_001 lines
1563-1570): call `DoOneTask` once on every block of the linked list, in
order, and count how many calls returned `complete`. -/
def UpdateSweep (tf : Nat → Nat → Bool) (blocks : List (List MBTask × TSState)) :
    List (List MBTask × TSState) × Nat :=
  blocks.foldr
    (fun b acc =>
      let r := DoOneTask tf b.1 b.2
      ((b.1, stateOf r) :: acc.1,
        acc.2 + if r.status = Tlstatus.complete then 1 else 0))
    ([], 0)

/-- The `while(nb>0)` driver loop of `Mesh::UpdateOneStep`, run with
`fuel` sweeps: `some` of the final block states when `nb` reaches `0`,
`none` when the fuel is exhausted with `nb` still positive.  The code
contains no other exit and no error report inside this loop. -/
def UpdateLoop (tf : Nat → Nat → Bool) :
    Nat → Nat → List (List MBTask × TSState) → Option (List (List MBTask × TSState))
  | _, 0, blocks => some blocks
  | 0, _ + 1, _ => none
  | fuel + 1, nb, blocks =>
    let p := UpdateSweep tf blocks
    UpdateLoop tf fuel (nb - p.2) p.1

/-- `Mesh::UpdateOneStep` (part_001 lines 1549-1578), with the boundary
bookkeeping calls (`StartReceivingAll`, `ClearBoundaryAll`) omitted as
communication side effects: reset every block, then iterate sweeps until
every block has reported `complete` (or the fuel runs out). -/
def UpdateOneStepRun (tf : Nat → Nat → Bool) (blockTasks : List (List MBTask))
    (fuel : Nat) : Option (List (List MBTask × TSState)) :=
  let blocks := blockTasks.map (fun tl => (tl, resetState tl))
  UpdateLoop tf fuel blocks.length blocks

/-- State of the greedy load-balance loop in the fresh-run `Mesh`
constructor (part_001 lines 285-300): current rank `j`, the remaining
unassigned cost `totalcost`, the running bucket `mycost`, the current
remaining-average threshold `targetcost`, and the rank list built so far
(position `i` of `rank` is the rank of global ID `i`). -/
structure LBState where
  j : Nat
  totalcost : ℚ
  mycost : ℚ
  targetcost : ℚ
  rank : List Nat
deriving DecidableEq, Repr

/-- One iteration of the fresh-run partition loop (part_001 lines
289-300), for the block of cost `c`: accumulate into the bucket, record
the current rank, and close the bucket when it reached the
remaining-average threshold and a lower rank remains. -/
def assignBlock (c : ℚ) (s : LBState) : LBState :=
  if s.targetcost ≤ s.mycost + c ∧ 0 < s.j then
    ⟨s.j - 1, s.totalcost - (s.mycost + c), 0,
      (s.totalcost - (s.mycost + c)) / (((s.j - 1 : Nat) : ℚ) + 1), s.j :: s.rank⟩
  else
    ⟨s.j, s.totalcost, s.mycost + c, s.targetcost, s.j :: s.rank⟩

/-- Initial partitioner state of the fresh-run constructor (part_001
lines 285-287): `j = nproc-1`, `targetcost = totalcost/nproc`. -/
def initLB (cost : List ℚ) (np : Nat) : LBState :=
  ⟨np - 1, cost.sum, 0, cost.sum / (np : ℚ), []⟩

/-- The `ranklist` computed by the fresh-run `Mesh` constructor: the
downward `for(i=nbtotal-1;i>=0;i--)` loop is the right fold of
`assignBlock` over the cost list. -/
def ranklistFresh (cost : List ℚ) (np : Nat) : List Nat :=
  (cost.foldr assignBlock (initLB cost np)).rank

/-- The `nslist`/`nblist` derivation loop of the fresh-run constructor
(part_001 lines 301-310), over the list of adjacent rank pairs
`(ranklist[i-1], ranklist[i])` for `i = 1..nbtotal-1`.  The arrays are
`new int[nproc]` and start with arbitrary (uninitialized) contents
`ns`/`nb`; out-of-range `List.set` is a no-op, matching the fact that
the code never writes those entries. -/
def deriveLoop (i j : Nat) (ns nb : List Nat) :
    List (Nat × Nat) → Nat × List Nat × List Nat
  | [] => (j, ns, nb)
  | (prev, cur) :: rest =>
    if cur ≠ prev then
      deriveLoop (i + 1) (j + 1) (ns.set (j + 1) i) (nb.set j (i - ns.getD j 0)) rest
    else deriveLoop (i + 1) j ns nb rest

/-- The `nslist` and `nblist` arrays as derived by the fresh-run
constructor from a rank list, starting from arbitrary array contents
`ns0`/`nb0` (the `new int[nproc]` allocations are uninitialized). -/
def deriveLists (rank : List Nat) (ns0 nb0 : List Nat) : List Nat × List Nat :=
  let r := deriveLoop 1 0 (ns0.set 0 0) nb0 (rank.zip (rank.drop 1))
  (r.2.1, r.2.2.set r.1 (rank.length - r.2.1.getD r.1 0))

/-- Restart-constructor copy of `assignBlock` (part_001 lines 792-807):
the loop body is textually identical to the fresh-run one. -/
def assignBlockRestart (c : ℚ) (s : LBState) : LBState :=
  if s.targetcost ≤ s.mycost + c ∧ 0 < s.j then
    ⟨s.j - 1, s.totalcost - (s.mycost + c), 0,
      (s.totalcost - (s.mycost + c)) / (((s.j - 1 : Nat) : ℚ) + 1), s.j :: s.rank⟩
  else
    ⟨s.j, s.totalcost, s.mycost + c, s.targetcost, s.j :: s.rank⟩

/-- Restart-constructor initial partitioner state (part_001 lines
792-794), identical to the fresh-run one. -/
def initLBRestart (cost : List ℚ) (np : Nat) : LBState :=
  ⟨np - 1, cost.sum, 0, cost.sum / (np : ℚ), []⟩

/-- The `ranklist` recomputed by the restart `Mesh` constructor from the
stored cost list (part_001 lines 792-807). -/
def ranklistRestart (cost : List ℚ) (np : Nat) : List Nat :=
  (cost.foldr assignBlockRestart (initLBRestart cost np)).rank

/-- Restart-constructor copy of the `nslist`/`nblist` derivation loop
(part_001 lines 824-832). -/
def deriveLoopRestart (i j : Nat) (ns nb : List Nat) :
    List (Nat × Nat) → Nat × List Nat × List Nat
  | [] => (j, ns, nb)
  | (prev, cur) :: rest =>
    if cur ≠ prev then
      deriveLoopRestart (i + 1) (j + 1) (ns.set (j + 1) i) (nb.set j (i - ns.getD j 0)) rest
    else deriveLoopRestart (i + 1) j ns nb rest

/-- The `nslist`/`nblist` arrays as derived by the restart constructor. -/
def deriveListsRestart (rank : List Nat) (ns0 nb0 : List Nat) : List Nat × List Nat :=
  let r := deriveLoopRestart 1 0 (ns0.set 0 0) nb0 (rank.zip (rank.drop 1))
  (r.2.1, r.2.2.set r.1 (rank.length - r.2.1.getD r.1 0))

/-- Total cost of the blocks a rank list assigns to rank `r`. -/
def rankCost (rank : List Nat) (cost : List ℚ) (r : Nat) : ℚ :=
  (((rank.zip cost).filter (fun p => decide (p.1 = r))).map Prod.snd).sum

/-- The rank assignment is a non-decreasing step function of the global
ID. -/
def RankMonotone (R : List Nat) : Prop :=
  ∀ i k, i ≤ k → k < R.length → R.getD i 0 ≤ R.getD k 0

/-- Adjacent ranks differ by at most one and never decrease with the ID. -/
def RankStair (R : List Nat) : Prop :=
  ∀ i, i + 1 < R.length →
    R.getD i 0 ≤ R.getD (i + 1) 0 ∧ R.getD (i + 1) 0 ≤ R.getD i 0 + 1

/-- The per-rank `(start, count)` ranges `[ns r, ns r + nb r)` for ranks
`0..np-1` are pairwise disjoint intervals whose union is exactly
`[0, N)` (each range is an interval, hence contiguous). -/
def RangesPartition (ns nb : List Nat) (np N : Nat) : Prop :=
  (∀ m < N, ∃ r < np, ns.getD r 0 ≤ m ∧ m < ns.getD r 0 + nb.getD r 0) ∧
  (∀ r < np, ns.getD r 0 + nb.getD r 0 ≤ N) ∧
  (∀ r < np, ∀ q < np, r ≠ q →
    ns.getD r 0 + nb.getD r 0 ≤ ns.getD q 0 ∨ nb.getD q 0 + ns.getD q 0 ≤ ns.getD r 0)

/-- A task is marked done in the completed mask `fl` (the code's
`(ti.taskid & task_flag) != 0` test). -/
def TDone (t : MBTask) (fl : Nat) : Prop := t.taskid &&& fl ≠ 0

/-- A task's dependencies are satisfied by the completed mask `fl` (the
code's `(ti.depend & task_flag) == ti.depend` test). -/
def TDepOk (t : MBTask) (fl : Nat) : Prop := t.depend &&& fl = t.depend

instance (t : MBTask) (fl : Nat) : Decidable (TDone t fl) :=
  inferInstanceAs (Decidable (t.taskid &&& fl ≠ 0))

instance (t : MBTask) (fl : Nat) : Decidable (TDepOk t fl) :=
  inferInstanceAs (Decidable (t.depend &&& fl = t.depend))

/-- Scheduler state invariant maintained across `DoOneTask` calls: every
task before the cursor is done, the cursor is within the array, `ntodo`
counts the not-done tasks, and every done task has its full bit pattern
in the mask. -/
def SchedInv (tasks : List MBTask) (s : TSState) : Prop :=
  (∀ jj, jj < s.firsttask → TDone (taskAt tasks jj) s.task_flag) ∧
  s.firsttask ≤ tasks.length ∧
  s.ntodo = ((Finset.range tasks.length).filter
      (fun i => (taskAt tasks i).taskid &&& s.task_flag = 0)).card ∧
  (∀ i, i < tasks.length → TDone (taskAt tasks i) s.task_flag →
      (taskAt tasks i).taskid &&& s.task_flag = (taskAt tasks i).taskid)

/-- Invariant package carried out of the `nslist`/`nblist` derivation
loop: final `j` is the last rank, array lengths are preserved,
`nslist[0] = 0`, consecutive starts differ by the counts, every ID lies
at or after the start of its own rank's range, and no ID lies at or
after the start of a higher rank's range. -/
def DeriveOut (R : List Nat) (np : Nat) (out : Nat × List Nat × List Nat) : Prop :=
  out.1 = R.getD (R.length - 1) 0 ∧
  out.2.1.length = np ∧
  out.2.2.length = np ∧
  out.2.1.getD 0 0 = 0 ∧
  out.2.1.getD out.1 0 ≤ R.length - 1 ∧
  (∀ r, r < out.1 → out.2.1.getD (r + 1) 0 = out.2.1.getD r 0 + out.2.2.getD r 0) ∧
  (∀ m, m < R.length → out.2.1.getD (R.getD m 0) 0 ≤ m) ∧
  (∀ m, m < R.length → ∀ r, r ≤ out.1 → out.2.1.getD r 0 ≤ m → r ≤ R.getD m 0)

/-- `Mesh::NewTimeStep` (part_001 lines 1370-1384): `min_dt` is the
`std::min` fold of the per-block recommendations `new_block_dt` over the
(non-empty) block list, starting from the first block; the stored step is
`dt = std::min(min_dt*cfl_number, 2.0*dt)`. -/
def NewTimeStep (cfl dt : ℚ) (d0 : ℚ) (rest : List ℚ) : ℚ :=
  min ((rest.foldl min d0) * cfl) (2 * dt)

/-- Modelled from the spec: the payload of `BlockTree::GetNeighbor`
(the tree class `blockuid.hpp`/`blockuid.cpp` is not part of this source
set): the global ID and refinement level of a tree node. -/
structure NeighborBlock where
  gid : Nat
  level : Nat
deriving DecidableEq, Repr

/-- Modelled from the spec: a non-null node returned by
`BlockTree::FindNeighbor` — its own gid/level, and `GetLeaf(x,y,z)`
descending into the child octant `(x,y,z)` when the node is refined
(spec 4.1: "call `GetLeafChild(dx,dy,dz)` to descend into one specific
child octant when the returned node is refined"). -/
structure BlockTreeNode where
  nei : NeighborBlock
  leaf : Bool → Bool → Bool → NeighborBlock

/-- One stored Neighbor record: target rank, level, global ID and local
ID, as passed to `MeshBlock::SetNeighbor` by the constructor
(`ranklist[nei.gid]`, `nei.level`, `nei.gid`, `nei.gid-nslist[rank]`). -/
structure NeighborRec where
  rank : Nat
  level : Nat
  gid : Nat
  lid : Nat
deriving DecidableEq, Repr

/-- The child octants the constructor descends into per face direction
(part_001 lines 443-631), in source order; directions are numbered
`inner_x1, outer_x1, inner_x2, outer_x2, inner_x3, outer_x3`. -/
def leafOctants : Fin 6 → List (Bool × Bool × Bool)
  | 0 => [(true, false, false), (true, false, true), (true, true, false), (true, true, true)]
  | 1 => [(false, false, false), (false, false, true), (false, true, false), (false, true, true)]
  | 2 => [(false, true, false), (false, true, true), (true, true, false), (true, true, true)]
  | 3 => [(false, false, false), (false, false, true), (true, false, false), (true, false, true)]
  | 4 => [(false, false, true), (false, true, true), (true, false, true), (true, true, true)]
  | 5 => [(false, false, false), (false, true, false), (true, false, false), (true, true, false)]

/-- The 2-D sub-face indices `(fx1, fx2)` passed with the four
`SetNeighbor` calls of the finer branch, in source order (every
direction uses `(0,0), (0,1), (1,0), (1,1)`). -/
def subFaceIdx : List (Bool × Bool) :=
  [(false, false), (false, true), (true, false), (true, true)]

/-- The Neighbor record payload the constructor builds for a found tree
node `n`: `SetNeighbor(dir, ranklist[n.gid], n.level, n.gid,
n.gid - nslist[ranklist[n.gid]], ...)`. -/
def mkNeighborRec (ranklist nslist : List Nat) (n : NeighborBlock) : NeighborRec :=
  let rk := ranklist.getD n.gid 0
  ⟨rk, n.level, n.gid, n.gid - nslist.getD rk 0⟩

/-- The `SetNeighbor` calls the `Mesh` constructor makes for one face
direction `dir` of a block at level `ll` whose tree neighbor `neibt`
exists (part_001 lines 443-631): one call when the neighbor is at the
same level or one coarser, otherwise (finer) four calls, one per child
octant of `leafOctants dir`, carrying the sub-face indices of
`subFaceIdx`.  Each list entry is (sub-face index, record).  Note the
code takes this four-call branch without consulting the mesh
dimensionality (`mesh_size.nx2`/`nx3` only decide whether x2/x3 faces
are wired at all). -/
def wireFace (ranklist nslist : List Nat) (ll : Nat) (dir : Fin 6)
    (neibt : BlockTreeNode) : List ((Bool × Bool) × NeighborRec) :=
  if neibt.nei.level = ll ∨ neibt.nei.level = ll - 1 then
    [((false, false), mkNeighborRec ranklist nslist neibt.nei)]
  else
    ((leafOctants dir).zip subFaceIdx).map
      (fun p => (p.2, mkNeighborRec ranklist nslist (neibt.leaf p.1.1 p.1.2.1 p.1.2.2)))

/-- Modelled from the spec: `MeshBlock::SetNeighbor` (not in this source
set) stores each record into the 6-direction × 2×2 neighbor array slot
selected by the direction and the 2-D sub-face index (spec 3: MeshBlock
has "a 6-direction × 2×2 array of Neighbor records"); a call without a
sub-face index uses slot `(0,0)`.  This folds a call list into the
per-face 2×2 slot map. -/
def storeFace (calls : List ((Bool × Bool) × NeighborRec)) :
    (Bool × Bool) → Option NeighborRec :=
  calls.foldl (fun m c q => if q = c.1 then some c.2 else m q) (fun _ => none)

/-- How many of the four 2×2 slots of a face hold a Neighbor record
after a list of `SetNeighbor` calls. -/
def faceRecCount (calls : List ((Bool × Bool) × NeighborRec)) : Nat :=
  subFaceIdx.countP (fun q => (storeFace calls q).isSome)

/-- A task list whose two tasks depend on each other's bit: a genuine
dependency cycle (task 0 has id bit 1 and depends on bit 2; task 1 has
id bit 2 and depends on bit 1). -/
def cycTasks : List MBTask := [⟨1, 2⟩, ⟨2, 1⟩]


lemma foldl_min_mem (l : List ℚ) : ∀ d0 : ℚ, l.foldl min d0 ∈ d0 :: l := by
  induction l with
  | nil => intro d0; simp
  | cons c t ih =>
    intro d0
    rw [List.foldl_cons]
    rcases List.mem_cons.mp (ih (min d0 c)) with h1 | h1
    · rw [h1]
      rcases min_choice d0 c with h2 | h2
      · rw [h2]; exact List.mem_cons_self _ _
      · rw [h2]; exact List.mem_cons_of_mem _ (List.mem_cons_self _ _)
    · exact List.mem_cons_of_mem _ (List.mem_cons_of_mem _ h1)

lemma foldl_min_le (l : List ℚ) : ∀ (d0 x : ℚ), x ∈ d0 :: l → l.foldl min d0 ≤ x := by
  induction l with
  | nil =>
    intro d0 x hx
    rw [List.mem_singleton] at hx
    rw [hx, List.foldl_nil]
  | cons c t ih =>
    intro d0 x hx
    rw [List.foldl_cons]
    have hbase : t.foldl min (min d0 c) ≤ min d0 c :=
      ih (min d0 c) (min d0 c) (List.mem_cons_self _ _)
    rcases List.mem_cons.mp hx with h1 | h1
    · rw [h1]; exact le_trans hbase (min_le_left _ _)
    · rcases List.mem_cons.mp h1 with h2 | h2
      · rw [h2]; exact le_trans hbase (min_le_right _ _)
      · exact ih (min d0 c) x (List.mem_cons_of_mem _ h2)

/-- C10: `Mesh::NewTimeStep` never more than doubles the step size: for
every block list and every prior `dt`, the stored step is at most
`2*dt`, however large the per-block recommendations are. -/
theorem C10_dt_at_most_doubled (cfl dt d0 : ℚ) (rest : List ℚ) :
    NewTimeStep cfl dt d0 rest ≤ 2 * dt :=
  min_le_right _ _

/-- C9 (counterexample): the stored `dt` is not the `min` reduction of
the per-block recommendations, and is not determined solely by it: with
one block recommending `100`, `cfl_number = 1` and previous `dt = 1` the
code stores `2` (the doubling cap), not `100`; the same recommendation
with previous `dt = 5` stores a different value. -/
theorem C9_counterexample :
    NewTimeStep 1 1 100 [] = 2 ∧ (List.foldl min 100 [] : ℚ) = 100 ∧
      ((2 : ℚ) ≠ 100) ∧ NewTimeStep 1 5 100 [] ≠ NewTimeStep 1 1 100 [] := by
  refine ⟨?_, rfl, by norm_num, ?_⟩ <;> norm_num [NewTimeStep, min_def]

/-- C9 (amended): `Mesh::NewTimeStep` picks the `min` reduction `m` of
the per-block recommended steps, then stores
`dt = min(m * cfl_number, 2 * previous dt)` — the CFL-scaled global
minimum recommendation capped at twice the previous step. -/
theorem C9_newTimeStep_min_reduction (cfl dt d0 : ℚ) (rest : List ℚ) :
    ∃ m, m ∈ d0 :: rest ∧ (∀ x ∈ d0 :: rest, m ≤ x) ∧
      NewTimeStep cfl dt d0 rest = min (m * cfl) (2 * dt) :=
  ⟨rest.foldl min d0, foldl_min_mem rest d0,
    fun x hx => foldl_min_le rest d0 x hx, rfl⟩

lemma assignBlockRestart_eq : assignBlockRestart = assignBlock := rfl

lemma initLBRestart_eq : initLBRestart = initLB := rfl

lemma deriveLoopRestart_eq_loop (pairs : List (Nat × Nat)) :
    ∀ i j ns nb, deriveLoopRestart i j ns nb pairs = deriveLoop i j ns nb pairs := by
  induction pairs with
  | nil => intro i j ns nb; rfl
  | cons p rest ih =>
    intro i j ns nb
    cases p with
    | mk prev cur =>
      simp only [deriveLoopRestart, deriveLoop]
      split
      · exact ih _ _ _ _
      · exact ih _ _ _ _

/-- C8: the partitioning loop of the restart `Mesh` constructor and the
partitioning loop of the fresh-run constructor compute exactly the same
`ranklist`, `nslist` and `nblist` for every cost list, worker count and
initial (uninitialized) array contents: the two code blocks are
identical. -/
theorem C8_restart_partition_identical (cost : List ℚ) (np : Nat)
    (ns0 nb0 : List Nat) :
    ranklistRestart cost np = ranklistFresh cost np ∧
      deriveListsRestart (ranklistRestart cost np) ns0 nb0 =
        deriveLists (ranklistFresh cost np) ns0 nb0 := by
  have h1 : ranklistRestart cost np = ranklistFresh cost np := by
    unfold ranklistRestart ranklistFresh
    rw [assignBlockRestart_eq, initLBRestart_eq]
  refine ⟨h1, ?_⟩
  rw [h1]
  unfold deriveListsRestart deriveLists
  rw [deriveLoopRestart_eq_loop]

lemma doOneTask_cyc (tf : Nat → Nat → Bool) :
    DoOneTask tf cycTasks (resetState cycTasks) =
      ⟨Tlstatus.stuck, 0, 2, 0, []⟩ := rfl

lemma updateSweep_cyc (tf : Nat → Nat → Bool) :
    UpdateSweep tf [(cycTasks, resetState cycTasks)] =
      ([(cycTasks, resetState cycTasks)], 0) := rfl

lemma updateLoop_cyc (tf : Nat → Nat → Bool) :
    ∀ fuel, UpdateLoop tf fuel 1 [(cycTasks, resetState cycTasks)] = none := by
  intro fuel
  induction fuel with
  | zero => rfl
  | succ f ih =>
    show UpdateLoop tf f
        (1 - (UpdateSweep tf [(cycTasks, resetState cycTasks)]).2)
        (UpdateSweep tf [(cycTasks, resetState cycTasks)]).1 = none
    rw [updateSweep_cyc]
    exact ih

/-- C7: `Mesh::UpdateOneStep` does NOT detect the absence of global
progress.  On a block whose task list is a genuine dependency cycle
(`cycTasks`), every `DoOneTask` call returns `stuck` with unchanged
state, and the `while(nb>0)` driver loop iterates forever — for every
fuel bound it is still running (`none`), and no fatal error is ever
reported (the loop body contains no error path at all).  This
contradicts the spec's requirement that a round making no global
progress be detected and reported as fatal. -/
theorem C7_update_loop_never_terminates (tf : Nat → Nat → Bool) (fuel : Nat) :
    UpdateOneStepRun tf [cycTasks] fuel = none ∧
      (DoOneTask tf cycTasks (resetState cycTasks)).status = Tlstatus.stuck :=
  ⟨updateLoop_cyc tf fuel, rfl⟩

lemma rankCost_cons (j r : Nat) (c : ℚ) (rank : List Nat) (cost : List ℚ) :
    rankCost (j :: rank) (c :: cost) r
      = (if j = r then c else 0) + rankCost rank cost r := by
  by_cases h : j = r <;> simp [rankCost, h]

lemma rankCost_nil_right (rank : List Nat) (r : Nat) : rankCost rank [] r = 0 := by
  simp [rankCost]

lemma assignBlock_close {c : ℚ} {s : LBState}
    (h : s.targetcost ≤ s.mycost + c ∧ 0 < s.j) :
    assignBlock c s =
      ⟨s.j - 1, s.totalcost - (s.mycost + c), 0,
        (s.totalcost - (s.mycost + c)) / (((s.j - 1 : Nat) : ℚ) + 1),
        s.j :: s.rank⟩ := by
  unfold assignBlock
  rw [if_pos h]

lemma assignBlock_open {c : ℚ} {s : LBState}
    (h : ¬(s.targetcost ≤ s.mycost + c ∧ 0 < s.j)) :
    assignBlock c s =
      ⟨s.j, s.totalcost, s.mycost + c, s.targetcost, s.j :: s.rank⟩ := by
  unfold assignBlock
  rw [if_neg h]

lemma assign_invariant (B : ℚ) (s : LBState)
    (h2 : s.totalcost = ((s.j : ℚ) + 1) * s.targetcost)
    (h3 : s.targetcost ≤ B) :
    ∀ l : List ℚ,
      (l.foldr assignBlock s).totalcost
          = (((l.foldr assignBlock s).j : ℚ) + 1) * (l.foldr assignBlock s).targetcost ∧
      (l.foldr assignBlock s).targetcost ≤ B ∧
      ((l.foldr assignBlock s).totalcost - (l.foldr assignBlock s).mycost
          = s.totalcost - s.mycost - l.sum) ∧
      rankCost (l.foldr assignBlock s).rank l 0
          = (if (l.foldr assignBlock s).j = 0 then (l.foldr assignBlock s).mycost else 0)
            - (if s.j = 0 then s.mycost else 0) := by
  intro l
  induction l with
  | nil =>
    refine ⟨h2, h3, by simp, ?_⟩
    rw [List.foldr_nil, rankCost_nil_right]
    exact (sub_self _).symm
  | cons c t ih =>
    obtain ⟨i2, i3, idelta, iz⟩ := ih
    rw [List.foldr_cons]
    by_cases hc : (t.foldr assignBlock s).targetcost
        ≤ (t.foldr assignBlock s).mycost + c ∧ 0 < (t.foldr assignBlock s).j
    · rw [assignBlock_close hc]
      have hj1 : (((t.foldr assignBlock s).j - 1 : Nat) : ℚ) + 1
          = ((t.foldr assignBlock s).j : ℚ) := by
        have h1 : (1 : Nat) ≤ (t.foldr assignBlock s).j := hc.2
        rw [Nat.cast_sub h1]
        push_cast
        ring
      have hjpos : (0 : ℚ) < ((t.foldr assignBlock s).j : ℚ) := by
        exact_mod_cast hc.2
      have hjt0 : (t.foldr assignBlock s).j ≠ 0 := Nat.pos_iff_ne_zero.mp hc.2
      refine ⟨?_, ?_, ?_, ?_⟩
      · dsimp only
        rw [hj1]
        field_simp
      · dsimp only
        rw [hj1]
        have hstep : (t.foldr assignBlock s).totalcost
            - ((t.foldr assignBlock s).mycost + c)
            ≤ ((t.foldr assignBlock s).j : ℚ) * (t.foldr assignBlock s).targetcost := by
          linarith [i2, hc.1]
        have hdiv : ((t.foldr assignBlock s).totalcost
            - ((t.foldr assignBlock s).mycost + c)) / ((t.foldr assignBlock s).j : ℚ)
            ≤ (t.foldr assignBlock s).targetcost :=
          (div_le_iff₀ hjpos).mpr (by linarith)
        linarith [i3]
      · dsimp only
        rw [List.sum_cons]
        linarith [idelta]
      · dsimp only
        rw [rankCost_cons, if_neg hjt0, iz, if_neg hjt0, ite_self]
        ring
    · rw [assignBlock_open hc]
      refine ⟨i2, i3, ?_, ?_⟩
      · dsimp only
        rw [List.sum_cons]
        linarith [idelta]
      · dsimp only
        rw [rankCost_cons]
        by_cases hj0 : (t.foldr assignBlock s).j = 0
        · simp only [if_pos hj0] at iz ⊢
          rw [iz]
          ring
        · simp only [if_neg hj0] at iz ⊢
          rw [iz]
          ring

/-- C5: the total cost of the blocks the greedy-from-the-end partitioner
assigns to rank 0 is at most the average share `totalcost / nproc`, for
every positive cost list and every worker count `nproc ≥ 1` (rank 0
absorbs what remains after the last bucket close, which the
remaining-average threshold keeps at or below the global average; when
the loop never reaches rank 0, rank 0 receives nothing). -/
theorem C5_rank0_at_most_average (cost : List ℚ) (np : Nat)
    (hpos : ∀ c ∈ cost, 0 < c) (hp : 1 ≤ np) :
    rankCost (ranklistFresh cost np) cost 0 ≤ cost.sum / (np : ℚ) := by
  have hnp : (0 : ℚ) < (np : ℚ) := by exact_mod_cast hp
  have hcast : ((np - 1 : Nat) : ℚ) + 1 = (np : ℚ) := by
    rw [Nat.cast_sub hp]
    push_cast
    ring
  have h2 : (initLB cost np).totalcost
      = (((initLB cost np).j : ℚ) + 1) * (initLB cost np).targetcost := by
    dsimp only [initLB]
    rw [hcast]
    field_simp
  have h3 : (initLB cost np).targetcost ≤ cost.sum / (np : ℚ) := le_refl _
  obtain ⟨i2, i3, idelta, iz⟩ :=
    assign_invariant (cost.sum / (np : ℚ)) (initLB cost np) h2 h3 cost
  rw [show ranklistFresh cost np
      = (cost.foldr assignBlock (initLB cost np)).rank from rfl]
  rw [iz]
  have hfs0 : (if (initLB cost np).j = 0 then (initLB cost np).mycost else 0)
      = (0 : ℚ) := by
    dsimp only [initLB]
    exact ite_self 0
  rw [hfs0, sub_zero]
  by_cases hj : (cost.foldr assignBlock (initLB cost np)).j = 0
  · rw [if_pos hj]
    have hdelta0 : (initLB cost np).totalcost - (initLB cost np).mycost
        - cost.sum = 0 := by
      dsimp only [initLB]
      ring
    have htt : (cost.foldr assignBlock (initLB cost np)).totalcost
        = (cost.foldr assignBlock (initLB cost np)).targetcost := by
      rw [i2, hj]
      push_cast
      ring
    linarith [idelta, hdelta0, i3, htt]
  · rw [if_neg hj]
    have hS : 0 ≤ cost.sum := List.sum_nonneg (fun x hx => le_of_lt (hpos x hx))
    exact div_nonneg hS (le_of_lt hnp)

/-- C5 witness: with three unit-cost blocks and two workers, rank 0
receives one block of cost 1, at most the average share 3/2. -/
theorem C5_witness :
    (∀ c ∈ ([1, 1, 1] : List ℚ), 0 < c) ∧ 1 ≤ 2 ∧
      rankCost (ranklistFresh [1, 1, 1] 2) [1, 1, 1] 0
        ≤ ([1, 1, 1] : List ℚ).sum / (2 : ℚ) :=
  ⟨by decide, by norm_num,
    C5_rank0_at_most_average [1, 1, 1] 2 (by decide) (by norm_num)⟩

lemma getD_set_self (l : List Nat) (n v : Nat) (h : n < l.length) :
    (l.set n v).getD n 0 = v := by
  rw [List.getD_eq_getElem?_getD, List.getElem?_set_self h]
  rfl

lemma getD_set_other (l : List Nat) (m n v : Nat) (h : m ≠ n) :
    (l.set m v).getD n 0 = l.getD n 0 := by
  rw [List.getD_eq_getElem?_getD, List.getElem?_set_ne h, ← List.getD_eq_getElem?_getD]

lemma assignBlock_rank_eq (c : ℚ) (s : LBState) :
    (assignBlock c s).rank = s.j :: s.rank := by
  unfold assignBlock
  split <;> rfl

lemma assignBlock_j_eq (c : ℚ) (s : LBState) :
    (assignBlock c s).j = s.j ∨
      ((assignBlock c s).j + 1 = s.j ∧ 0 < s.j) := by
  unfold assignBlock
  split
  next h =>
    right
    exact ⟨Nat.succ_pred_eq_of_pos h.2, h.2⟩
  next =>
    left
    rfl

lemma foldr_rank_length (s : LBState) :
    ∀ l : List ℚ, (l.foldr assignBlock s).rank.length = l.length + s.rank.length := by
  intro l
  induction l with
  | nil => simp
  | cons c t ih =>
    rw [List.foldr_cons, assignBlock_rank_eq, List.length_cons, ih, List.length_cons]
    omega

lemma stair_cons (j : Nat) (R : List Nat) (hR : RankStair R)
    (hlink : R = [] ∨ j = R.headD 0 ∨ j + 1 = R.headD 0) :
    RankStair (j :: R) := by
  intro i hi
  cases i with
  | zero =>
    rcases hlink with h | h | h
    · subst h
      simp at hi
    · cases R with
      | nil => simp at hi
      | cons a t =>
        simp only [List.headD_cons] at h
        subst h
        constructor <;> simp [List.getD_cons_zero, List.getD_cons_succ]
    · cases R with
      | nil => simp at hi
      | cons a t =>
        simp only [List.headD_cons] at h
        simp [List.getD_cons_zero, List.getD_cons_succ]
        omega
  | succ k =>
    rw [List.getD_cons_succ, List.getD_cons_succ]
    exact hR k (by simpa using hi)

lemma foldr_stair (s : LBState)
    (hR : RankStair s.rank)
    (hlink : s.rank = [] ∨ s.j = s.rank.headD 0 ∨ s.j + 1 = s.rank.headD 0) :
    ∀ l : List ℚ, RankStair ((l.foldr assignBlock s).rank) ∧
      ((l.foldr assignBlock s).rank = []
        ∨ (l.foldr assignBlock s).j = (l.foldr assignBlock s).rank.headD 0
        ∨ (l.foldr assignBlock s).j + 1 = (l.foldr assignBlock s).rank.headD 0) := by
  intro l
  induction l with
  | nil => exact ⟨hR, hlink⟩
  | cons c t ih =>
    obtain ⟨ihR, ihlink⟩ := ih
    rw [List.foldr_cons]
    constructor
    · rw [assignBlock_rank_eq]
      exact stair_cons _ _ ihR ihlink
    · rw [assignBlock_rank_eq]
      right
      rcases assignBlock_j_eq c (t.foldr assignBlock s) with h | h
      · left
        rw [h]
        rfl
      · right
        rw [h.1]
        rfl

lemma foldr_rank_getLast (s : LBState) (hs : s.rank = []) :
    ∀ l : List ℚ, l ≠ [] → ((l.foldr assignBlock s).rank).getLast? = some s.j := by
  intro l
  induction l with
  | nil => intro h; exact absurd rfl h
  | cons c t ih =>
    intro _
    rw [List.foldr_cons, assignBlock_rank_eq]
    by_cases ht : t = []
    · subst ht
      rw [List.foldr_nil, hs]
      rfl
    · have hlast := ih ht
      cases hrk : (t.foldr assignBlock s).rank with
      | nil => rw [hrk] at hlast; simp at hlast
      | cons a rt =>
        rw [hrk] at hlast
        rw [List.getLast?_cons_cons]
        exact hlast

lemma ranklistFresh_stair (cost : List ℚ) (np : Nat) :
    RankStair (ranklistFresh cost np) :=
  (foldr_stair (initLB cost np) (fun _ hi => absurd hi (by simp [initLB]))
    (Or.inl rfl) cost).1

lemma ranklistFresh_length (cost : List ℚ) (np : Nat) :
    (ranklistFresh cost np).length = cost.length := by
  unfold ranklistFresh
  rw [foldr_rank_length]
  simp [initLB]

lemma stair_monotone (R : List Nat) (h : RankStair R) : RankMonotone R := by
  intro i k hik
  induction k, hik using Nat.le_induction with
  | base => intro _; exact le_refl _
  | succ n hn ih =>
    intro hk
    exact le_trans (ih (by omega)) (h n (by omega)).1

lemma ranklistFresh_last (cost : List ℚ) (np : Nat) (hc : cost ≠ []) :
    (ranklistFresh cost np).getD (cost.length - 1) 0 = np - 1 := by
  have hR : (ranklistFresh cost np).getLast? = some (np - 1) :=
    foldr_rank_getLast (initLB cost np) rfl cost hc
  rw [List.getLast?_eq_getElem?] at hR
  rw [List.getD_eq_getElem?_getD,
    show cost.length - 1 = (ranklistFresh cost np).length - 1 by
      rw [ranklistFresh_length], hR]
  rfl

lemma ranklistFresh_le (cost : List ℚ) (np : Nat) (hc : cost ≠ []) :
    ∀ m, m < cost.length → (ranklistFresh cost np).getD m 0 ≤ np - 1 := by
  intro m hm
  have hmono := stair_monotone _ (ranklistFresh_stair cost np)
  have hlen := ranklistFresh_length cost np
  have h1 : (ranklistFresh cost np).getD m 0
      ≤ (ranklistFresh cost np).getD (cost.length - 1) 0 := by
    apply hmono m (cost.length - 1) (by omega)
    rw [hlen]
    have : cost.length ≠ 0 := fun h => hc (List.eq_nil_of_length_eq_zero h)
    omega
  rw [ranklistFresh_last cost np hc] at h1
  exact h1

lemma derive_invariant (R : List Nat) (np : Nat)
    (hstair : RankStair R)
    (hmono : RankMonotone R)
    (hbound : ∀ m, m < R.length → R.getD m 0 ≤ np - 1) :
    ∀ (rest : List (Nat × Nat)) (i j : Nat) (ns nb : List Nat),
      1 ≤ i → i ≤ R.length →
      rest.length = R.length - i →
      (∀ k, k < rest.length →
        rest.getD k (0, 0) = (R.getD (i - 1 + k) 0, R.getD (i + k) 0)) →
      j = R.getD (i - 1) 0 →
      ns.length = np → nb.length = np →
      ns.getD 0 0 = 0 →
      ns.getD j 0 ≤ i - 1 →
      (∀ r, r < j → ns.getD (r + 1) 0 = ns.getD r 0 + nb.getD r 0) →
      (∀ m, m < i → ns.getD (R.getD m 0) 0 ≤ m) →
      (∀ m, m < i → ∀ r, r ≤ j → ns.getD r 0 ≤ m → r ≤ R.getD m 0) →
      DeriveOut R np (deriveLoop i j ns nb rest) := by
  intro rest
  induction rest with
  | nil =>
    intro i j ns nb hi1 hiN hlen _ hj hnsl hnbl hns0 hk4 hk2 hk3a hk3b
    simp only [List.length_nil] at hlen
    have hieq : i = R.length := by omega
    subst hieq
    subst hj
    exact ⟨rfl, hnsl, hnbl, hns0, hk4, hk2, hk3a, hk3b⟩
  | cons p rtail ih =>
    intro i j ns nb hi1 hiN hlen hpairs hj hnsl hnbl hns0 hk4 hk2 hk3a hk3b
    obtain ⟨prev, cur⟩ := p
    have hilt : i < R.length := by
      simp only [List.length_cons] at hlen
      omega
    have hp0 := hpairs 0 (by simp)
    rw [List.getD_cons_zero] at hp0
    have hprev : prev = R.getD (i - 1) 0 := by
      have := congrArg Prod.fst hp0
      simpa using this
    have hcur : cur = R.getD i 0 := by
      have := congrArg Prod.snd hp0
      simpa using this
    have hprevj : prev = j := by rw [hprev, ← hj]
    have hstairi := hstair (i - 1) (by omega)
    rw [show i - 1 + 1 = i by omega] at hstairi
    have hpairs' : ∀ k, k < rtail.length →
        rtail.getD k (0, 0) = (R.getD (i + 1 - 1 + k) 0, R.getD (i + 1 + k) 0) := by
      intro k hk
      have hp := hpairs (k + 1) (by simp only [List.length_cons]; omega)
      rw [List.getD_cons_succ] at hp
      rw [hp]
      congr 2 <;> omega
    have hlen' : rtail.length = R.length - (i + 1) := by
      simp only [List.length_cons] at hlen
      omega
    by_cases hchange : cur ≠ prev
    · -- a rank change at index i: cur = j + 1
      have hcurj : cur = j + 1 := by
        have h1 := hstairi.1
        have h2 := hstairi.2
        rw [← hj] at h1 h2
        rw [← hcur] at h1 h2
        have hne : cur ≠ j := by rw [hprevj] at hchange; exact hchange
        omega
      have hjnp : j + 1 < np := by
        have hb := hbound i hilt
        rw [← hcur, hcurj] at hb
        omega
      rw [show deriveLoop i j ns nb ((prev, cur) :: rtail)
          = deriveLoop (i + 1) (j + 1) (ns.set (j + 1) i)
              (nb.set j (i - ns.getD j 0)) rtail from by
        simp only [deriveLoop]
        rw [if_pos hchange]]
      have hjj : j + 1 = R.getD (i + 1 - 1) 0 := by
        rw [show i + 1 - 1 = i from rfl, ← hcur, hcurj]
      have hlns : (ns.set (j + 1) i).length = np := by
        rw [List.length_set]; exact hnsl
      have hlnb : (nb.set j (i - ns.getD j 0)).length = np := by
        rw [List.length_set]; exact hnbl
      have hns0' : (ns.set (j + 1) i).getD 0 0 = 0 := by
        rw [getD_set_other _ _ _ _ (by omega)]
        exact hns0
      have hset_hit : (ns.set (j + 1) i).getD (j + 1) 0 = i :=
        getD_set_self _ _ _ (by rw [hnsl]; exact hjnp)
      have hk4' : (ns.set (j + 1) i).getD (j + 1) 0 ≤ i + 1 - 1 := by
        rw [hset_hit]
        omega
      have hjlt : j < np := by omega
      have hk2' : ∀ r, r < j + 1 → (ns.set (j + 1) i).getD (r + 1) 0
          = (ns.set (j + 1) i).getD r 0 + (nb.set j (i - ns.getD j 0)).getD r 0 := by
        intro r hr
        by_cases hrj : r = j
        · subst hrj
          rw [hset_hit, getD_set_other _ _ _ _ (by omega),
            getD_set_self _ _ _ (by rw [hnbl]; exact hjlt)]
          exact (Nat.add_sub_cancel' (le_trans hk4 (Nat.sub_le i 1))).symm
        · have hrlt : r < j := by omega
          rw [getD_set_other _ _ _ _ (by omega : j + 1 ≠ r + 1),
            getD_set_other _ _ _ _ (by omega : j + 1 ≠ r),
            getD_set_other _ _ _ _ (by omega : j ≠ r)]
          exact hk2 r hrlt
      have hk3a' : ∀ m, m < i + 1 → (ns.set (j + 1) i).getD (R.getD m 0) 0 ≤ m := by
        intro m hm
        by_cases hmi : m = i
        · subst hmi
          rw [← hcur, hcurj, hset_hit]
        · have hmlt : m < i := by omega
          have hRm : R.getD m 0 ≤ j := by
            have hmm := hmono m (i - 1) (by omega) (by omega)
            rw [← hj] at hmm
            exact hmm
          rw [getD_set_other _ _ _ _ (by omega : j + 1 ≠ R.getD m 0)]
          exact hk3a m hmlt
      have hk3b' : ∀ m, m < i + 1 → ∀ r, r ≤ j + 1 →
          (ns.set (j + 1) i).getD r 0 ≤ m → r ≤ R.getD m 0 := by
        intro m hm r hr hle
        by_cases hmi : m = i
        · subst hmi
          rw [← hcur, hcurj]
          exact hr
        · have hmlt : m < i := by omega
          by_cases hrj : r = j + 1
          · subst hrj
            rw [hset_hit] at hle
            omega
          · have hrle : r ≤ j := by omega
            rw [getD_set_other _ _ _ _ (by omega : j + 1 ≠ r)] at hle
            exact hk3b m hmlt r hrle hle
      exact ih (i + 1) (j + 1) _ _ (by omega) (by omega) hlen' hpairs' hjj
        hlns hlnb hns0' hk4' hk2' hk3a' hk3b'
    · -- no rank change at index i
      have hcureq : cur = prev := Decidable.not_not.mp hchange
      have hRieq : R.getD i 0 = j := by
        rw [← hcur, hcureq, hprevj]
      rw [show deriveLoop i j ns nb ((prev, cur) :: rtail)
          = deriveLoop (i + 1) j ns nb rtail from by
        simp only [deriveLoop]
        rw [if_neg hchange]]
      have hjj : j = R.getD (i + 1 - 1) 0 := by
        rw [show i + 1 - 1 = i from rfl, hRieq]
      have hk4' : ns.getD j 0 ≤ i + 1 - 1 := by omega
      have hk3a' : ∀ m, m < i + 1 → ns.getD (R.getD m 0) 0 ≤ m := by
        intro m hm
        by_cases hmi : m = i
        · subst hmi
          rw [hRieq]
          omega
        · exact hk3a m (by omega)
      have hk3b' : ∀ m, m < i + 1 → ∀ r, r ≤ j → ns.getD r 0 ≤ m → r ≤ R.getD m 0 := by
        intro m hm r hr hle
        by_cases hmi : m = i
        · subst hmi
          rw [hRieq]
          exact hr
        · exact hk3b m (by omega) r hr hle
      exact ih (i + 1) j ns nb (by omega) (by omega) hlen' hpairs' hjj
        hnsl hnbl hns0 hk4' hk2 hk3a' hk3b'

lemma chain_mono (ns nb : List Nat) (j : Nat)
    (hk2 : ∀ r, r < j → ns.getD (r + 1) 0 = ns.getD r 0 + nb.getD r 0) :
    ∀ a b, a ≤ b → b ≤ j → ns.getD a 0 ≤ ns.getD b 0 := by
  intro a b hab
  induction b, hab using Nat.le_induction with
  | base => intro _; exact le_refl _
  | succ n hn ih =>
    intro hb
    have h1 := hk2 n (by omega)
    have h2 := ih (by omega)
    omega

lemma zipAdj_getD : ∀ (R : List Nat) (k : Nat), k < (R.zip (R.drop 1)).length →
    (R.zip (R.drop 1)).getD k (0, 0) = (R.getD k 0, R.getD (k + 1) 0) := by
  intro R
  induction R with
  | nil => intro k hk; simp at hk
  | cons a t ih =>
    intro k hk
    cases t with
    | nil => simp at hk
    | cons b t' =>
      simp only [List.drop_succ_cons, List.drop_zero, List.zip_cons_cons] at hk ⊢
      cases k with
      | zero => rfl
      | succ k' =>
        have hk' : k' < ((b :: t').zip ((b :: t').drop 1)).length := by
          simp only [List.drop_succ_cons, List.drop_zero, List.zip_cons_cons,
            List.length_cons, List.length_zip] at hk ⊢
          omega
        have hih := ih k' hk'
        simp only [List.drop_succ_cons, List.drop_zero, List.zip_cons_cons] at hih
        rw [List.getD_cons_succ, List.getD_cons_succ, List.getD_cons_succ]
        exact hih

lemma deriveLists_partition (R : List Nat) (np : Nat) (ns0 nb0 : List Nat)
    (hstair : RankStair R) (hN : 1 ≤ R.length)
    (h0 : R.getD 0 0 = 0)
    (hlast : R.getD (R.length - 1) 0 = np - 1)
    (hnp : 1 ≤ np)
    (hns0 : ns0.length = np) (hnb0 : nb0.length = np) :
    RangesPartition (deriveLists R ns0 nb0).1 (deriveLists R ns0 nb0).2 np R.length := by
  have hmono := stair_monotone R hstair
  have hbound : ∀ m, m < R.length → R.getD m 0 ≤ np - 1 := by
    intro m hm
    have := hmono m (R.length - 1) (by omega) (by omega)
    rw [hlast] at this
    exact this
  have hziplen : (R.zip (R.drop 1)).length = R.length - 1 := by
    simp only [List.length_zip, List.length_drop]
    omega
  have hout : DeriveOut R np
      (deriveLoop 1 0 (ns0.set 0 0) nb0 (R.zip (R.drop 1))) := by
    apply derive_invariant R np hstair hmono hbound (R.zip (R.drop 1)) 1 0
      (ns0.set 0 0) nb0 (le_refl 1) hN (by omega)
    · intro k hk
      rw [zipAdj_getD R k hk]
      congr 2 <;> omega
    · exact h0.symm
    · rw [List.length_set]
      exact hns0
    · exact hnb0
    · exact getD_set_self ns0 0 0 (by omega)
    · rw [getD_set_self ns0 0 0 (by omega)]
    · intro r hr
      omega
    · intro m hm
      have hm0 : m = 0 := by omega
      subst hm0
      rw [h0, getD_set_self ns0 0 0 (by omega)]
    · intro m _ r hr _
      omega
  suffices key : ∀ o : Nat × List Nat × List Nat, DeriveOut R np o →
      RangesPartition o.2.1 (o.2.2.set o.1 (R.length - o.2.1.getD o.1 0)) np R.length by
    exact key _ hout
  intro o ho
  obtain ⟨jf, nsF, nbR⟩ := o
  obtain ⟨hjf, hlns, hlnb, hns0', hk4', hk2', hk3a', hk3b'⟩ := ho
  simp only at hjf hlns hlnb hns0' hk4' hk2' hk3a' hk3b' ⊢
  rw [hlast] at hjf
  have hjflt : jf < np := by omega
  have hnbF_hit : (nbR.set jf (R.length - nsF.getD jf 0)).getD jf 0
      = R.length - nsF.getD jf 0 :=
    getD_set_self _ _ _ (by rw [hlnb]; exact hjflt)
  have hnbF_other : ∀ r, r ≠ jf →
      (nbR.set jf (R.length - nsF.getD jf 0)).getD r 0 = nbR.getD r 0 := by
    intro r hr
    exact getD_set_other _ _ _ _ (fun h => hr h.symm)
  have htop : nsF.getD jf 0 + (nbR.set jf (R.length - nsF.getD jf 0)).getD jf 0
      = R.length := by
    rw [hnbF_hit]
    have : nsF.getD jf 0 ≤ R.length := le_trans hk4' (Nat.sub_le _ _)
    omega
  have hmonoF : ∀ a b, a ≤ b → b ≤ jf → nsF.getD a 0 ≤ nsF.getD b 0 :=
    chain_mono nsF nbR jf hk2'
  refine ⟨?_, ?_, ?_⟩
  · -- coverage: every global ID lies in its own rank's range
    intro m hm
    refine ⟨R.getD m 0, by have := hbound m hm; omega, hk3a' m hm, ?_⟩
    by_cases hr : R.getD m 0 = jf
    · rw [hr, htop]
      exact hm
    · have hrlt : R.getD m 0 < jf := by
        have := hbound m hm
        omega
      rw [hnbF_other _ (by omega), ← hk2' _ hrlt]
      by_contra hcon
      push_neg at hcon
      have := hk3b' m hm (R.getD m 0 + 1) (by omega) hcon
      omega
  · -- all ranges stay within [0, N)
    intro r hr
    by_cases hrjf : r = jf
    · rw [hrjf, htop]
    · have hrlt : r < jf := by omega
      calc nsF.getD r 0 + (nbR.set jf (R.length - nsF.getD jf 0)).getD r 0
            = nsF.getD (r + 1) 0 := by
            rw [hnbF_other _ (by omega)]
            exact (hk2' r hrlt).symm
        _ ≤ nsF.getD jf 0 := hmonoF (r + 1) jf (by omega) (le_refl _)
        _ ≤ R.length := le_trans hk4' (Nat.sub_le _ _)
  · -- ranges of distinct ranks are disjoint
    intro r hr q hq hne
    rcases Nat.lt_or_ge r q with hlt | hge
    · left
      calc nsF.getD r 0 + (nbR.set jf (R.length - nsF.getD jf 0)).getD r 0
            = nsF.getD (r + 1) 0 := by
            rw [hnbF_other _ (by omega)]
            exact (hk2' r (by omega)).symm
        _ ≤ nsF.getD q 0 := hmonoF (r + 1) q (by omega) (by omega)
    · right
      have hqlt : q < r := by omega
      calc (nbR.set jf (R.length - nsF.getD jf 0)).getD q 0 + nsF.getD q 0
            = nsF.getD (q + 1) 0 := by
            rw [hnbF_other _ (by omega), Nat.add_comm]
            exact (hk2' q (by omega)).symm
        _ ≤ nsF.getD r 0 := hmonoF (q + 1) r (by omega) (by omega)

/-- C4 (counterexample): for the positive cost list `[10,1,1]` with
`P = 3 ≤ N = 3` workers, the greedy pass assigns every block to rank 2
(`ranklist = [2,2,2]`), so ranks 0 and 1 receive no block and their
`nslist`/`nblist` entries are never written; with (uninitialized)
array contents `[5,5,5]` the derived ranges fail to partition `[0,3)`
(rank 1's range is `[5,10)`), refuting the claim as stated. -/
theorem C4_counterexample :
    (∀ c ∈ ([10, 1, 1] : List ℚ), 0 < c) ∧ 1 ≤ 3 ∧ 3 ≤ ([10, 1, 1] : List ℚ).length ∧
      ¬(RankMonotone (ranklistFresh [10, 1, 1] 3) ∧
        RangesPartition (deriveLists (ranklistFresh [10, 1, 1] 3) [5, 5, 5] [5, 5, 5]).1
          (deriveLists (ranklistFresh [10, 1, 1] 3) [5, 5, 5] [5, 5, 5]).2 3 3) := by
  have h1 : ranklistFresh [10, 1, 1] 3 = [2, 2, 2] := by
    norm_num [ranklistFresh, initLB, assignBlock]
  have heval : deriveLists (ranklistFresh [10, 1, 1] 3) [5, 5, 5] [5, 5, 5]
      = ([0, 5, 5], [3, 5, 5]) := by
    rw [h1]
    decide
  refine ⟨by decide, by norm_num, by decide, ?_⟩
  intro h
  have hb := h.2.2.1 1 (by norm_num)
  rw [heval] at hb
  simp [List.getD] at hb

/-- C4 (amended): for every positive cost list, worker count
`1 ≤ P ≤ N` and (uninitialized) initial array contents, the greedy
partitioner's rank list is a non-decreasing step function of the global
ID; and — provided the greedy pass assigns at least one block to rank 0
(`ranklist[0] = 0`, which the counterexample shows can fail for skewed
positive cost lists, but which holds for the uniform unit costs the
constructor uses) — the derived per-rank `(start, count)` ranges are
contiguous intervals, pairwise disjoint, with union exactly `[0, N)`. -/
theorem C4_partition_ranges (cost : List ℚ) (np : Nat) (ns0 nb0 : List Nat)
    (hpos : ∀ c ∈ cost, 0 < c) (hp1 : 1 ≤ np) (hpn : np ≤ cost.length)
    (hns0 : ns0.length = np) (hnb0 : nb0.length = np)
    (hr0 : (ranklistFresh cost np).getD 0 0 = 0) :
    RankMonotone (ranklistFresh cost np) ∧
      RangesPartition (deriveLists (ranklistFresh cost np) ns0 nb0).1
        (deriveLists (ranklistFresh cost np) ns0 nb0).2 np cost.length := by
  have hc : cost ≠ [] := by
    intro h
    rw [h] at hpn
    simp at hpn
    omega
  have hlen := ranklistFresh_length cost np
  have hNc : 1 ≤ cost.length := by
    have : cost.length ≠ 0 := fun h => hc (List.eq_nil_of_length_eq_zero h)
    omega
  refine ⟨stair_monotone _ (ranklistFresh_stair cost np), ?_⟩
  have hpart := deriveLists_partition (ranklistFresh cost np) np ns0 nb0
    (ranklistFresh_stair cost np) (by omega) hr0
    (by rw [hlen]; exact ranklistFresh_last cost np hc) hp1 hns0 hnb0
  rw [hlen] at hpart
  exact hpart

/-- C4 witness: four unit-cost blocks over two workers give
`ranklist = [0,0,1,1]`; starting from garbage array contents `[7,7]`
and `[9,9]`, the derived ranges partition `[0,4)`. -/
theorem C4_witness :
    (∀ c ∈ ([1, 1, 1, 1] : List ℚ), 0 < c) ∧
      (ranklistFresh [1, 1, 1, 1] 2).getD 0 0 = 0 ∧
      (RankMonotone (ranklistFresh [1, 1, 1, 1] 2) ∧
        RangesPartition (deriveLists (ranklistFresh [1, 1, 1, 1] 2) [7, 7] [9, 9]).1
          (deriveLists (ranklistFresh [1, 1, 1, 1] 2) [7, 7] [9, 9]).2 2 4) := by
  have h1 : ranklistFresh [1, 1, 1, 1] 2 = [0, 0, 1, 1] := by
    norm_num [ranklistFresh, initLB, assignBlock]
  refine ⟨by decide, by rw [h1]; rfl, ?_⟩
  exact C4_partition_ranges [1, 1, 1, 1] 2 [7, 7] [9, 9] (by decide) (by norm_num)
    (by norm_num) (by decide) (by decide) (by rw [h1]; rfl)

/-- C6 (amended): for a face whose tree neighbor exists, the `Mesh`
constructor stores exactly one Neighbor record when the neighbor's level
equals the block's level or is one coarser; when the neighbor is finer
it always stores exactly 4 Neighbor records — one per child octant of
the 3-D octant table — carrying the four distinct sub-face indices
`(0,0),(0,1),(1,0),(1,1)`, for every face direction and regardless of
the mesh dimensionality (the code makes the four `SetNeighbor` calls
unconditionally; nothing in the finer branch consults `nx2`/`nx3`). -/
theorem C6_neighbor_records (ranklist nslist : List Nat) (ll : Nat)
    (dir : Fin 6) (neibt : BlockTreeNode) :
    (neibt.nei.level = ll ∨ neibt.nei.level = ll - 1 →
      faceRecCount (wireFace ranklist nslist ll dir neibt) = 1) ∧
    (¬(neibt.nei.level = ll ∨ neibt.nei.level = ll - 1) →
      faceRecCount (wireFace ranklist nslist ll dir neibt) = 4 ∧
        (wireFace ranklist nslist ll dir neibt).map Prod.fst = subFaceIdx) := by
  constructor
  · intro h
    rw [wireFace, if_pos h]
    simp [faceRecCount, storeFace, subFaceIdx, List.countP, List.countP.go]
  · intro h
    rw [wireFace, if_neg h]
    constructor
    · fin_cases dir <;>
        simp [faceRecCount, storeFace, subFaceIdx, leafOctants,
          List.countP, List.countP.go]
    · fin_cases dir <;> simp [subFaceIdx, leafOctants]

/-- C6 (counterexample): the claim predicts that in a 2-D mesh a finer
neighbor contributes 2 Neighbor records.  A 2-D mesh (`nx3 = 1`) runs
the x1-face wiring unchanged, and for a finer neighbor (level 2 next to
a level-1 block) the code stores 4 records, not 2: the finer branch
never consults the dimensionality. -/
theorem C6_counterexample :
    faceRecCount (wireFace [0] [0] 1 0 ⟨⟨0, 2⟩, fun _ _ _ => ⟨0, 2⟩⟩) = 4 ∧
      (4 : Nat) ≠ 2 := by
  constructor
  · decide
  · decide

/-- C6 witness: a same-level neighbor (level 1 beside a level-1 block)
yields exactly one stored Neighbor record. -/
theorem C6_witness :
    ((⟨⟨3, 1⟩, fun _ _ _ => ⟨4, 2⟩⟩ : BlockTreeNode).nei.level = 1 ∨
      (⟨⟨3, 1⟩, fun _ _ _ => ⟨4, 2⟩⟩ : BlockTreeNode).nei.level = 1 - 1) ∧
      faceRecCount (wireFace [0, 0, 0, 0] [0] 1 0
        ⟨⟨3, 1⟩, fun _ _ _ => ⟨4, 2⟩⟩) = 1 :=
  ⟨Or.inl rfl,
    (C6_neighbor_records [0, 0, 0, 0] [0] 1 0 ⟨⟨3, 1⟩, fun _ _ _ => ⟨4, 2⟩⟩).1
      (Or.inl rfl)⟩

lemma land_eq_left_iff (x y : Nat) :
    x &&& y = x ↔ ∀ b, x.testBit b = true → y.testBit b = true := by
  constructor
  · intro h b hb
    have hc := congrArg (fun z => z.testBit b) h
    simp only [Nat.testBit_land] at hc
    rw [hb] at hc
    simpa using hc
  · intro h
    apply Nat.eq_of_testBit_eq
    intro b
    rw [Nat.testBit_land]
    cases hx : x.testBit b
    · simp
    · simp [h b hx]

lemma land_eq_zero_iff (x y : Nat) :
    x &&& y = 0 ↔ ∀ b, x.testBit b = true → y.testBit b = false := by
  constructor
  · intro h b hb
    have hc := congrArg (fun z => z.testBit b) h
    simp only [Nat.testBit_land, Nat.zero_testBit] at hc
    rw [hb] at hc
    simpa using hc
  · intro h
    apply Nat.eq_of_testBit_eq
    intro b
    rw [Nat.testBit_land, Nat.zero_testBit]
    cases hx : x.testBit b
    · simp
    · simp [h b hx]

lemma land_ne_zero_iff (x y : Nat) :
    x &&& y ≠ 0 ↔ ∃ b, x.testBit b = true ∧ y.testBit b = true := by
  rw [Ne, land_eq_zero_iff]
  push_neg
  simp only [Bool.ne_false_iff]

lemma subset_lor_left (x y : Nat) : x &&& (x ||| y) = x := by
  rw [land_eq_left_iff]
  intro b hb
  rw [Nat.testBit_lor, hb]
  rfl

lemma subset_lor_right (x y : Nat) : x &&& (y ||| x) = x := by
  rw [land_eq_left_iff]
  intro b hb
  rw [Nat.testBit_lor, hb, Bool.or_true]

lemma subset_lor_of_subset (x y z : Nat) (h : x &&& y = x) :
    x &&& (y ||| z) = x := by
  rw [land_eq_left_iff] at h ⊢
  intro b hb
  rw [Nat.testBit_lor, h b hb]
  rfl

lemma land_lor_of_disj (x y z : Nat) (h : x &&& z = 0) :
    x &&& (y ||| z) = x &&& y := by
  apply Nat.eq_of_testBit_eq
  intro b
  rw [land_eq_zero_iff] at h
  rw [Nat.testBit_land, Nat.testBit_lor, Nat.testBit_land]
  cases hx : x.testBit b
  · simp
  · simp [h b hx]

lemma land_subset_trans (x y z : Nat) (h1 : x &&& y = x) (h2 : y &&& z = y) :
    x &&& z = x := by
  rw [land_eq_left_iff] at h1 h2 ⊢
  intro b hb
  exact h2 b (h1 b hb)

lemma tdone_mono (t : MBTask) (x y : Nat) (hd : TDone t x) (hxy : x &&& y = x) :
    TDone t y := by
  rw [TDone, land_ne_zero_iff] at hd ⊢
  obtain ⟨b, hb1, hb2⟩ := hd
  rw [land_eq_left_iff] at hxy
  exact ⟨b, hb1, hxy b hb2⟩

lemma orAll_testBit (tasks : List MBTask) (b : Nat)
    (h : (orAllTaskid tasks).testBit b = true) :
    ∃ t ∈ tasks, t.taskid.testBit b = true := by
  induction tasks with
  | nil => rw [orAllTaskid] at h; simp [Nat.zero_testBit] at h
  | cons t rest ih =>
    rw [orAllTaskid, List.foldr_cons, Nat.testBit_lor] at h
    rcases Bool.or_eq_true_iff.mp h with h1 | h1
    · exact ⟨t, List.mem_cons_self _ _, h1⟩
    · obtain ⟨t', ht', hb'⟩ := ih h1
      exact ⟨t', List.mem_cons_of_mem _ ht', hb'⟩

lemma taskAt_drop (tasks : List MBTask) (ft k : Nat) :
    (tasks.drop ft).getD k ⟨0, 0⟩ = taskAt tasks (ft + k) := by
  rw [taskAt, List.getD_eq_getElem?_getD, List.getD_eq_getElem?_getD,
    List.getElem?_drop]

lemma mem_to_taskAt (tasks : List MBTask) (t : MBTask) (ht : t ∈ tasks) :
    ∃ i, i < tasks.length ∧ taskAt tasks i = t := by
  obtain ⟨⟨i, hi⟩, hget⟩ := List.mem_iff_get.mp ht
  refine ⟨i, hi, ?_⟩
  rw [taskAt, List.getD_eq_getElem (tasks) _ hi]
  rw [← hget]
  rfl

lemma doTaskLoop_flag_mono (tf : Nat → Nat → Bool) (fl nt : Nat) :
    ∀ (l : List MBTask) (i skip ft : Nat),
      fl &&& (doTaskLoop tf fl nt l i skip ft).task_flag = fl := by
  intro l
  induction l with
  | nil => intro i skip ft; exact Nat.and_self fl
  | cons t rest ih =>
    intro i skip ft
    simp only [doTaskLoop]
    by_cases h1 : t.taskid &&& fl = 0
    · rw [if_pos h1]
      by_cases h2 : t.depend &&& fl = t.depend
      · rw [if_pos h2]
        by_cases h3 : tf i fl = true
        · rw [if_pos h3]
          exact subset_lor_left fl t.taskid
        · rw [if_neg h3]
          exact ih (i + 1) (skip + 1) ft
      · rw [if_neg h2]
        exact ih (i + 1) (skip + 1) ft
    · rw [if_neg h1]
      by_cases h4 : skip = 0
      · rw [if_pos h4]
        exact ih (i + 1) skip (ft + 1)
      · rw [if_neg h4]
        exact ih (i + 1) skip ft

lemma doTaskLoop_trace (tf : Nat → Nat → Bool) (fl nt : Nat) :
    ∀ (l : List MBTask) (i skip ft : Nat),
      ∀ m ∈ (doTaskLoop tf fl nt l i skip ft).invoked,
        ∃ k, k < l.length ∧ m = i + k ∧
          ¬TDone (l.getD k ⟨0, 0⟩) fl ∧ TDepOk (l.getD k ⟨0, 0⟩) fl := by
  intro l
  induction l with
  | nil => intro i skip ft m hm; simp [doTaskLoop] at hm
  | cons t rest ih =>
    intro i skip ft m hm
    simp only [doTaskLoop] at hm
    by_cases h1 : t.taskid &&& fl = 0
    · rw [if_pos h1] at hm
      by_cases h2 : t.depend &&& fl = t.depend
      · rw [if_pos h2] at hm
        by_cases h3 : tf i fl = true
        · rw [if_pos h3] at hm
          simp only [List.mem_singleton] at hm
          subst hm
          exact ⟨0, by simp, by omega,
            by rw [List.getD_cons_zero]; exact fun hd => hd h1,
            by rw [List.getD_cons_zero]; exact h2⟩
        · rw [if_neg h3] at hm
          simp only [List.mem_cons] at hm
          rcases hm with hm | hm
          · subst hm
            exact ⟨0, by simp, by omega,
              by rw [List.getD_cons_zero]; exact fun hd => hd h1,
              by rw [List.getD_cons_zero]; exact h2⟩
          · obtain ⟨k, hk, hmk, hnd, hdep⟩ := ih (i + 1) (skip + 1) ft m hm
            exact ⟨k + 1, by simp; omega, by omega,
              by rw [List.getD_cons_succ]; exact hnd,
              by rw [List.getD_cons_succ]; exact hdep⟩
      · rw [if_neg h2] at hm
        obtain ⟨k, hk, hmk, hnd, hdep⟩ := ih (i + 1) (skip + 1) ft m hm
        exact ⟨k + 1, by simp; omega, by omega,
          by rw [List.getD_cons_succ]; exact hnd,
          by rw [List.getD_cons_succ]; exact hdep⟩
    · rw [if_neg h1] at hm
      by_cases h4 : skip = 0
      · rw [if_pos h4] at hm
        obtain ⟨k, hk, hmk, hnd, hdep⟩ := ih (i + 1) skip (ft + 1) m hm
        exact ⟨k + 1, by simp; omega, by omega,
          by rw [List.getD_cons_succ]; exact hnd,
          by rw [List.getD_cons_succ]; exact hdep⟩
      · rw [if_neg h4] at hm
        obtain ⟨k, hk, hmk, hnd, hdep⟩ := ih (i + 1) skip ft m hm
        exact ⟨k + 1, by simp; omega, by omega,
          by rw [List.getD_cons_succ]; exact hnd,
          by rw [List.getD_cons_succ]; exact hdep⟩

lemma doTaskLoop_none (tf : Nat → Nat → Bool) (fl nt : Nat) :
    ∀ (l : List MBTask) (i skip ft : Nat),
      (∀ k, k < l.length → ¬TDone (l.getD k ⟨0, 0⟩) fl →
        TDepOk (l.getD k ⟨0, 0⟩) fl → tf (i + k) fl = false) →
      ft ≤ i → (skip = 0 → ft = i) →
      (doTaskLoop tf fl nt l i skip ft).status = Tlstatus.stuck ∧
      (doTaskLoop tf fl nt l i skip ft).task_flag = fl ∧
      (doTaskLoop tf fl nt l i skip ft).ntodo = nt ∧
      ft ≤ (doTaskLoop tf fl nt l i skip ft).firsttask ∧
      (doTaskLoop tf fl nt l i skip ft).firsttask ≤ i + l.length ∧
      (∀ m, ft ≤ m → m < (doTaskLoop tf fl nt l i skip ft).firsttask →
        ∃ k, k < l.length ∧ m = i + k ∧ TDone (l.getD k ⟨0, 0⟩) fl) := by
  intro l
  induction l with
  | nil =>
    intro i skip ft _ hfi _
    refine ⟨rfl, rfl, rfl, le_refl _, ?_, ?_⟩
    · show ft ≤ i + List.length []
      simp only [List.length_nil]
      omega
    · intro m h1 h2
      have h2' : m < ft := h2
      omega
  | cons t rest ih =>
    intro i skip ft hnone hfi hskip
    simp only [doTaskLoop]
    by_cases h1 : t.taskid &&& fl = 0
    · rw [if_pos h1]
      have htd : ¬TDone t fl := fun hd => hd h1
      by_cases h2 : t.depend &&& fl = t.depend
      · rw [if_pos h2]
        have htf : tf i fl = false := by
          have := hnone 0 (by simp) (by rw [List.getD_cons_zero]; exact htd)
            (by rw [List.getD_cons_zero]; exact h2)
          rw [Nat.add_zero] at this
          exact this
        rw [if_neg (by rw [htf]; exact Bool.false_ne_true)]
        have hnone' : ∀ k, k < rest.length → ¬TDone (rest.getD k ⟨0, 0⟩) fl →
            TDepOk (rest.getD k ⟨0, 0⟩) fl → tf (i + 1 + k) fl = false := by
          intro k hk hnd hdep
          have := hnone (k + 1) (by simp; omega)
            (by rw [List.getD_cons_succ]; exact hnd)
            (by rw [List.getD_cons_succ]; exact hdep)
          rw [show i + (k + 1) = i + 1 + k by omega] at this
          exact this
        obtain ⟨hs, hflag, hnt, hle, hub, hscan⟩ :=
          ih (i + 1) (skip + 1) ft hnone' (by omega) (by omega)
        refine ⟨hs, hflag, hnt, hle, by simp only [List.length_cons]; omega, ?_⟩
        intro m hm1 hm2
        obtain ⟨k, hk, hmk, hdk⟩ := hscan m hm1 hm2
        exact ⟨k + 1, by simp; omega, by omega,
          by rw [List.getD_cons_succ]; exact hdk⟩
      · rw [if_neg h2]
        have hnone' : ∀ k, k < rest.length → ¬TDone (rest.getD k ⟨0, 0⟩) fl →
            TDepOk (rest.getD k ⟨0, 0⟩) fl → tf (i + 1 + k) fl = false := by
          intro k hk hnd hdep
          have := hnone (k + 1) (by simp; omega)
            (by rw [List.getD_cons_succ]; exact hnd)
            (by rw [List.getD_cons_succ]; exact hdep)
          rw [show i + (k + 1) = i + 1 + k by omega] at this
          exact this
        obtain ⟨hs, hflag, hnt, hle, hub, hscan⟩ :=
          ih (i + 1) (skip + 1) ft hnone' (by omega) (by omega)
        refine ⟨hs, hflag, hnt, hle, by simp only [List.length_cons]; omega, ?_⟩
        intro m hm1 hm2
        obtain ⟨k, hk, hmk, hdk⟩ := hscan m hm1 hm2
        exact ⟨k + 1, by simp; omega, by omega,
          by rw [List.getD_cons_succ]; exact hdk⟩
    · rw [if_neg h1]
      have htd : TDone t fl := h1
      have hnone' : ∀ k, k < rest.length → ¬TDone (rest.getD k ⟨0, 0⟩) fl →
          TDepOk (rest.getD k ⟨0, 0⟩) fl → tf (i + 1 + k) fl = false := by
        intro k hk hnd hdep
        have := hnone (k + 1) (by simp; omega)
          (by rw [List.getD_cons_succ]; exact hnd)
          (by rw [List.getD_cons_succ]; exact hdep)
        rw [show i + (k + 1) = i + 1 + k by omega] at this
        exact this
      by_cases h4 : skip = 0
      · rw [if_pos h4]
        have hfteq : ft = i := hskip h4
        obtain ⟨hs, hflag, hnt, hle, hub, hscan⟩ :=
          ih (i + 1) skip (ft + 1) hnone' (by omega) (by omega)
        refine ⟨hs, hflag, hnt, by omega, by simp only [List.length_cons]; omega, ?_⟩
        intro m hm1 hm2
        by_cases hmft : m = ft
        · subst hmft
          exact ⟨0, by simp, by omega, by rw [List.getD_cons_zero]; exact htd⟩
        · obtain ⟨k, hk, hmk, hdk⟩ := hscan m (by omega) hm2
          exact ⟨k + 1, by simp; omega, by omega,
            by rw [List.getD_cons_succ]; exact hdk⟩
      · rw [if_neg h4]
        obtain ⟨hs, hflag, hnt, hle, hub, hscan⟩ :=
          ih (i + 1) skip ft hnone' (by omega) (fun h => absurd h h4)
        refine ⟨hs, hflag, hnt, hle, by simp only [List.length_cons]; omega, ?_⟩
        intro m hm1 hm2
        obtain ⟨k, hk, hmk, hdk⟩ := hscan m hm1 hm2
        exact ⟨k + 1, by simp; omega, by omega,
          by rw [List.getD_cons_succ]; exact hdk⟩

lemma doTaskLoop_hit (tf : Nat → Nat → Bool) (fl nt : Nat) :
    ∀ (l : List MBTask) (k0 i skip ft : Nat),
      k0 < l.length →
      ¬TDone (l.getD k0 ⟨0, 0⟩) fl → TDepOk (l.getD k0 ⟨0, 0⟩) fl →
      tf (i + k0) fl = true →
      (∀ k, k < k0 → ¬TDone (l.getD k ⟨0, 0⟩) fl →
        TDepOk (l.getD k ⟨0, 0⟩) fl → tf (i + k) fl = false) →
      ft ≤ i → (skip = 0 → ft = i) →
      (doTaskLoop tf fl nt l i skip ft).status
          = (if nt - 1 = 0 then Tlstatus.complete else Tlstatus.running) ∧
      (doTaskLoop tf fl nt l i skip ft).task_flag
          = fl ||| (l.getD k0 ⟨0, 0⟩).taskid ∧
      (doTaskLoop tf fl nt l i skip ft).ntodo = nt - 1 ∧
      ft ≤ (doTaskLoop tf fl nt l i skip ft).firsttask ∧
      (doTaskLoop tf fl nt l i skip ft).firsttask ≤ i + l.length ∧
      (∀ m, ft ≤ m → m < (doTaskLoop tf fl nt l i skip ft).firsttask →
        ∃ k, k < l.length ∧ m = i + k ∧
          (TDone (l.getD k ⟨0, 0⟩) fl ∨ k = k0)) := by
  intro l
  induction l with
  | nil =>
    intro k0 i skip ft hk0 _ _ _ _ _ _
    simp at hk0
  | cons t rest ih =>
    intro k0 i skip ft hk0 hnd0 hdep0 htf0 hmin hfi hskip
    simp only [doTaskLoop]
    cases k0 with
    | zero =>
      rw [List.getD_cons_zero] at hnd0 hdep0
      have h1 : t.taskid &&& fl = 0 := by
        by_contra hcon
        exact hnd0 hcon
      have hdep0' : t.depend &&& fl = t.depend := hdep0
      rw [if_pos h1, if_pos hdep0', if_pos (show tf i fl = true from htf0)]
      refine ⟨rfl, by rw [List.getD_cons_zero], rfl, ?_, ?_, ?_⟩
      · show ft ≤ (if skip = 0 then ft + 1 else ft)
        by_cases h4 : skip = 0
        · rw [if_pos h4]
          omega
        · rw [if_neg h4]
      · show (if skip = 0 then ft + 1 else ft) ≤ i + (t :: rest).length
        simp only [List.length_cons]
        by_cases h4 : skip = 0
        · rw [if_pos h4]
          omega
        · rw [if_neg h4]
          omega
      · intro m hm1 hm2
        have hm2' : m < (if skip = 0 then ft + 1 else ft) := hm2
        by_cases h4 : skip = 0
        · rw [if_pos h4] at hm2'
          have hfteq : ft = i := hskip h4
          exact ⟨0, by simp, by omega, Or.inr rfl⟩
        · rw [if_neg h4] at hm2'
          omega
    | succ k' =>
      rw [List.getD_cons_succ] at hnd0 hdep0
      have hk' : k' < rest.length := by
        simp only [List.length_cons] at hk0
        omega
      have htf0' : tf (i + 1 + k') fl = true := by
        rw [show i + 1 + k' = i + (k' + 1) by omega]
        exact htf0
      have hmin' : ∀ k, k < k' → ¬TDone (rest.getD k ⟨0, 0⟩) fl →
          TDepOk (rest.getD k ⟨0, 0⟩) fl → tf (i + 1 + k) fl = false := by
        intro k hk hnd hdep
        have := hmin (k + 1) (by omega)
          (by rw [List.getD_cons_succ]; exact hnd)
          (by rw [List.getD_cons_succ]; exact hdep)
        rw [show i + (k + 1) = i + 1 + k by omega] at this
        exact this
      by_cases h1 : t.taskid &&& fl = 0
      · rw [if_pos h1]
        have htd : ¬TDone t fl := fun hd => hd h1
        by_cases h2 : t.depend &&& fl = t.depend
        · rw [if_pos h2]
          have htf : tf i fl = false := by
            have := hmin 0 (by omega) (by rw [List.getD_cons_zero]; exact htd)
              (by rw [List.getD_cons_zero]; exact h2)
            rw [Nat.add_zero] at this
            exact this
          rw [if_neg (by rw [htf]; exact Bool.false_ne_true)]
          obtain ⟨hs, hflag, hnt, hle, hub, hscan⟩ :=
            ih k' (i + 1) (skip + 1) ft hk' hnd0 hdep0 htf0' hmin'
              (by omega) (by omega)
          refine ⟨hs, by rw [List.getD_cons_succ]; exact hflag, hnt, hle,
            by simp only [List.length_cons]; omega, ?_⟩
          intro m hm1 hm2
          obtain ⟨k, hk, hmk, hdk⟩ := hscan m hm1 hm2
          refine ⟨k + 1, by simp only [List.length_cons]; omega, by omega, ?_⟩
          rw [List.getD_cons_succ]
          rcases hdk with hdk | hdk
          · exact Or.inl hdk
          · exact Or.inr (by omega)
        · rw [if_neg h2]
          obtain ⟨hs, hflag, hnt, hle, hub, hscan⟩ :=
            ih k' (i + 1) (skip + 1) ft hk' hnd0 hdep0 htf0' hmin'
              (by omega) (by omega)
          refine ⟨hs, by rw [List.getD_cons_succ]; exact hflag, hnt, hle,
            by simp only [List.length_cons]; omega, ?_⟩
          intro m hm1 hm2
          obtain ⟨k, hk, hmk, hdk⟩ := hscan m hm1 hm2
          refine ⟨k + 1, by simp only [List.length_cons]; omega, by omega, ?_⟩
          rw [List.getD_cons_succ]
          rcases hdk with hdk | hdk
          · exact Or.inl hdk
          · exact Or.inr (by omega)
      · rw [if_neg h1]
        have htd : TDone t fl := h1
        by_cases h4 : skip = 0
        · rw [if_pos h4]
          have hfteq : ft = i := hskip h4
          obtain ⟨hs, hflag, hnt, hle, hub, hscan⟩ :=
            ih k' (i + 1) skip (ft + 1) hk' hnd0 hdep0 htf0' hmin'
              (by omega) (by omega)
          refine ⟨hs, by rw [List.getD_cons_succ]; exact hflag, hnt, by omega,
            by simp only [List.length_cons]; omega, ?_⟩
          intro m hm1 hm2
          by_cases hmft : m = ft
          · subst hmft
            exact ⟨0, by simp, by omega, Or.inl (by rw [List.getD_cons_zero]; exact htd)⟩
          · obtain ⟨k, hk, hmk, hdk⟩ := hscan m (by omega) hm2
            refine ⟨k + 1, by simp only [List.length_cons]; omega, by omega, ?_⟩
            rw [List.getD_cons_succ]
            rcases hdk with hdk | hdk
            · exact Or.inl hdk
            · exact Or.inr (by omega)
        · rw [if_neg h4]
          obtain ⟨hs, hflag, hnt, hle, hub, hscan⟩ :=
            ih k' (i + 1) skip ft hk' hnd0 hdep0 htf0' hmin'
              (by omega) (fun h => absurd h h4)
          refine ⟨hs, by rw [List.getD_cons_succ]; exact hflag, hnt, hle,
            by simp only [List.length_cons]; omega, ?_⟩
          intro m hm1 hm2
          obtain ⟨k, hk, hmk, hdk⟩ := hscan m hm1 hm2
          refine ⟨k + 1, by simp only [List.length_cons]; omega, by omega, ?_⟩
          rw [List.getD_cons_succ]
          rcases hdk with hdk | hdk
          · exact Or.inl hdk
          · exact Or.inr (by omega)

/-- C2: on a single `DoOneTask` call with at least one outstanding task,
the scan starts at the cached cursor; if `j0` is the first scanned task
that is not yet in the completed mask, has its dependency mask contained
in the completed mask, and whose operation reports work (every earlier
scanned eligible task reporting no work), then `j0`'s bit is added to the
mask, the outstanding count drops by one, and the call returns `complete`
when no task remains outstanding and `running` otherwise; if no scanned
task is both eligible and reports work, the mask is unchanged and the
call returns `stuck`. -/
theorem C2_doOneTask_contract (tf : Nat → Nat → Bool) (tasks : List MBTask)
    (s : TSState) (hnt : s.ntodo ≠ 0) :
    (∀ j0, s.firsttask ≤ j0 → j0 < tasks.length →
      ¬TDone (taskAt tasks j0) s.task_flag →
      TDepOk (taskAt tasks j0) s.task_flag →
      tf j0 s.task_flag = true →
      (∀ j, s.firsttask ≤ j → j < j0 →
        ¬TDone (taskAt tasks j) s.task_flag →
        TDepOk (taskAt tasks j) s.task_flag →
        tf j s.task_flag = false) →
      (DoOneTask tf tasks s).task_flag = s.task_flag ||| (taskAt tasks j0).taskid ∧
      (DoOneTask tf tasks s).ntodo = s.ntodo - 1 ∧
      ((DoOneTask tf tasks s).ntodo = 0 →
        (DoOneTask tf tasks s).status = Tlstatus.complete) ∧
      ((DoOneTask tf tasks s).ntodo ≠ 0 →
        (DoOneTask tf tasks s).status = Tlstatus.running)) ∧
    ((∀ j, s.firsttask ≤ j → j < tasks.length →
        ¬TDone (taskAt tasks j) s.task_flag →
        TDepOk (taskAt tasks j) s.task_flag →
        tf j s.task_flag = false) →
      (DoOneTask tf tasks s).task_flag = s.task_flag ∧
      (DoOneTask tf tasks s).status = Tlstatus.stuck) := by
  have hDo : DoOneTask tf tasks s
      = doTaskLoop tf s.task_flag s.ntodo (tasks.drop s.firsttask)
          s.firsttask 0 s.firsttask := by
    rw [DoOneTask, if_neg hnt]
  have hgetD := taskAt_drop tasks s.firsttask
  have hlendrop : (tasks.drop s.firsttask).length = tasks.length - s.firsttask :=
    List.length_drop _ _
  constructor
  · intro j0 hge hlt hnd hdep htf hmin
    have hk0 : j0 - s.firsttask < (tasks.drop s.firsttask).length := by
      rw [hlendrop]
      omega
    have hj0eq : s.firsttask + (j0 - s.firsttask) = j0 := by omega
    obtain ⟨hs, hflag, hntr, _, _, _⟩ :=
      doTaskLoop_hit tf s.task_flag s.ntodo (tasks.drop s.firsttask)
        (j0 - s.firsttask) s.firsttask 0 s.firsttask hk0
        (by rw [hgetD, hj0eq]; exact hnd)
        (by rw [hgetD, hj0eq]; exact hdep)
        (by rw [hj0eq]; exact htf)
        (by
          intro k hk hndk hdepk
          rw [hgetD] at hndk hdepk
          exact hmin (s.firsttask + k) (by omega) (by omega) hndk hdepk)
        (le_refl _) (fun _ => rfl)
    rw [hDo]
    refine ⟨by rw [hflag, hgetD, hj0eq], hntr, ?_, ?_⟩
    · intro h0
      rw [hntr] at h0
      rw [hs, if_pos h0]
    · intro h0
      rw [hntr] at h0
      rw [hs, if_neg h0]
  · intro hall
    obtain ⟨hs, hflag, _, _, _, _⟩ :=
      doTaskLoop_none tf s.task_flag s.ntodo (tasks.drop s.firsttask)
        s.firsttask 0 s.firsttask
        (by
          intro k hk hndk hdepk
          rw [hgetD] at hndk hdepk
          exact hall (s.firsttask + k)
            (by omega) (by rw [hlendrop] at hk; omega) hndk hdepk)
        (le_refl _) (fun _ => rfl)
    rw [hDo]
    exact ⟨hflag, hs⟩

/-- C2 witness: one outstanding task with no dependencies whose operation
reports work is completed by the call, which returns `complete`; and in a
state where its dependency is unsatisfiable the call leaves the mask
unchanged and returns `stuck`. -/
theorem C2_witness :
    ((1 : Nat) ≠ 0) ∧
      ((DoOneTask (fun _ _ => true) [⟨1, 0⟩] ⟨0, 1, 0⟩).task_flag
          = 0 ||| (taskAt [⟨1, 0⟩] 0).taskid ∧
        (DoOneTask (fun _ _ => true) [⟨1, 0⟩] ⟨0, 1, 0⟩).ntodo = 1 - 1 ∧
        ((DoOneTask (fun _ _ => true) [⟨1, 0⟩] ⟨0, 1, 0⟩).ntodo = 0 →
          (DoOneTask (fun _ _ => true) [⟨1, 0⟩] ⟨0, 1, 0⟩).status
            = Tlstatus.complete) ∧
        ((DoOneTask (fun _ _ => true) [⟨1, 0⟩] ⟨0, 1, 0⟩).ntodo ≠ 0 →
          (DoOneTask (fun _ _ => true) [⟨1, 0⟩] ⟨0, 1, 0⟩).status
            = Tlstatus.running)) :=
  ⟨by decide,
    (C2_doOneTask_contract (fun _ _ => true) [⟨1, 0⟩] ⟨0, 1, 0⟩ (by decide)).1
      0 (by decide) (by decide) (by decide) (by decide) (by decide)
      (fun j _ hj => absurd hj (by omega))⟩

lemma sched_step (tasks : List MBTask) (tf : Nat → Nat → Bool) (s : TSState)
    (hbit : ∀ i, i < tasks.length → (taskAt tasks i).taskid ≠ 0)
    (hdisj : ∀ i, i < tasks.length → ∀ j, j < tasks.length → i ≠ j →
      (taskAt tasks i).taskid &&& (taskAt tasks j).taskid = 0)
    (hclosed : ∀ i, i < tasks.length →
      (taskAt tasks i).depend &&& orAllTaskid tasks = (taskAt tasks i).depend)
    (hacyc : ∀ S : Finset (Fin tasks.length), S.Nonempty →
      ∃ i ∈ S, ∀ j ∈ S,
        (taskAt tasks (i : Nat)).depend &&& (taskAt tasks (j : Nat)).taskid = 0)
    (htf : ∀ i fl, TDepOk (taskAt tasks i) fl → tf i fl = true)
    (hinv : SchedInv tasks s) (hnt : s.ntodo ≠ 0) :
    SchedInv tasks (stateOf (DoOneTask tf tasks s)) ∧
    (DoOneTask tf tasks s).ntodo = s.ntodo - 1 ∧
    (DoOneTask tf tasks s).status
        = (if s.ntodo = 1 then Tlstatus.complete else Tlstatus.running) ∧
    s.task_flag &&& (DoOneTask tf tasks s).task_flag = s.task_flag := by
  obtain ⟨hI1, hI2, hI3, hI4⟩ := hinv
  have hgetD := taskAt_drop tasks s.firsttask
  have hlendrop : (tasks.drop s.firsttask).length = tasks.length - s.firsttask :=
    List.length_drop _ _
  -- the set of incomplete tasks is nonempty
  have hSne : ((Finset.range tasks.length).filter
      (fun i => (taskAt tasks i).taskid &&& s.task_flag = 0)).Nonempty := by
    rw [← Finset.card_pos]
    rw [hI3] at hnt
    omega
  have hSbound : ∀ m ∈ (Finset.range tasks.length).filter
      (fun i => (taskAt tasks i).taskid &&& s.task_flag = 0), m < tasks.length := by
    intro m hm
    exact Finset.mem_range.mp (Finset.mem_filter.mp hm).1
  -- a dependency-free incomplete task exists (acyclicity)
  obtain ⟨i0, hi0S, hsrc⟩ := hacyc
    (Finset.attachFin _ hSbound)
    (by
      obtain ⟨a, ha⟩ := hSne
      exact ⟨⟨a, hSbound a ha⟩, (Finset.mem_attachFin _).mpr ha⟩)
  have hi0mem := (Finset.mem_attachFin _).mp hi0S
  have hi0inc : (taskAt tasks (i0 : Nat)).taskid &&& s.task_flag = 0 :=
    (Finset.mem_filter.mp hi0mem).2
  have hi0lt : (i0 : Nat) < tasks.length := i0.isLt
  -- its dependencies are all satisfied by the completed mask
  have hi0dep : TDepOk (taskAt tasks (i0 : Nat)) s.task_flag := by
    rw [TDepOk, land_eq_left_iff]
    intro b hb
    have hball : (orAllTaskid tasks).testBit b = true := by
      have hcl := hclosed (i0 : Nat) hi0lt
      rw [land_eq_left_iff] at hcl
      exact hcl b hb
    obtain ⟨t, htmem, htb⟩ := orAll_testBit tasks b hball
    obtain ⟨j, hjlt, hjeq⟩ := mem_to_taskAt tasks t htmem
    rw [← hjeq] at htb
    by_cases hjinc : (taskAt tasks j).taskid &&& s.task_flag = 0
    · have hjS : (⟨j, hjlt⟩ : Fin tasks.length) ∈ Finset.attachFin _ hSbound := by
        rw [Finset.mem_attachFin]
        rw [Finset.mem_filter]
        exact ⟨Finset.mem_range.mpr hjlt, hjinc⟩
      have hz := hsrc ⟨j, hjlt⟩ hjS
      rw [land_eq_zero_iff] at hz
      have := hz b hb
      rw [htb] at this
      exact absurd this (by simp)
    · have hfull := hI4 j hjlt hjinc
      rw [land_eq_left_iff] at hfull
      exact hfull b htb
  -- it lies at or after the cursor
  have hi0ge : s.firsttask ≤ (i0 : Nat) := by
    by_contra hcon
    push_neg at hcon
    exact hI1 (i0 : Nat) hcon hi0inc
  -- least eligible-and-successful scan position
  have hPex : ∃ k, k < (tasks.drop s.firsttask).length ∧
      ¬TDone ((tasks.drop s.firsttask).getD k ⟨0, 0⟩) s.task_flag ∧
      TDepOk ((tasks.drop s.firsttask).getD k ⟨0, 0⟩) s.task_flag ∧
      tf (s.firsttask + k) s.task_flag = true := by
    refine ⟨(i0 : Nat) - s.firsttask, by rw [hlendrop]; omega, ?_, ?_, ?_⟩
    · rw [hgetD, show s.firsttask + ((i0 : Nat) - s.firsttask) = (i0 : Nat) by omega]
      exact fun hd => hd hi0inc
    · rw [hgetD, show s.firsttask + ((i0 : Nat) - s.firsttask) = (i0 : Nat) by omega]
      exact hi0dep
    · rw [show s.firsttask + ((i0 : Nat) - s.firsttask) = (i0 : Nat) by omega]
      exact htf _ _ hi0dep
  obtain ⟨hk0len, hk0nd, hk0dep, hk0tf⟩ := Nat.find_spec hPex
  have hk0min := fun k (hk : k < Nat.find hPex) => Nat.find_min hPex hk
  have hDo : DoOneTask tf tasks s
      = doTaskLoop tf s.task_flag s.ntodo (tasks.drop s.firsttask)
          s.firsttask 0 s.firsttask := by
    rw [DoOneTask, if_neg hnt]
  obtain ⟨hs, hflag, hntr, hftle, hftub, hscan⟩ :=
    doTaskLoop_hit tf s.task_flag s.ntodo (tasks.drop s.firsttask)
      (Nat.find hPex) s.firsttask 0 s.firsttask hk0len hk0nd hk0dep hk0tf
      (by
        intro k hk hndk hdepk
        have hnP := hk0min k hk
        push_neg at hnP
        have := hnP (by omega) hndk hdepk
        cases htfk : tf (s.firsttask + k) s.task_flag
        · rfl
        · exact absurd htfk this)
      (le_refl _) (fun _ => rfl)
  -- the completed task, in absolute index
  have hj0lt : s.firsttask + Nat.find hPex < tasks.length := by
    omega
  have hj0inc : (taskAt tasks (s.firsttask + Nat.find hPex)).taskid
      &&& s.task_flag = 0 := by
    rw [hgetD] at hk0nd
    by_contra hcon
    exact hk0nd hcon
  have hflag' : (DoOneTask tf tasks s).task_flag
      = s.task_flag ||| (taskAt tasks (s.firsttask + Nat.find hPex)).taskid := by
    rw [hDo, hflag, hgetD]
  have hmono : s.task_flag &&& (DoOneTask tf tasks s).task_flag = s.task_flag := by
    rw [hflag']
    exact subset_lor_left _ _
  have hdonej0 : TDone (taskAt tasks (s.firsttask + Nat.find hPex))
      (DoOneTask tf tasks s).task_flag := by
    rw [TDone, hflag', subset_lor_right]
    exact hbit _ hj0lt
  have hother : ∀ a, a < tasks.length → a ≠ s.firsttask + Nat.find hPex →
      (taskAt tasks a).taskid &&& (DoOneTask tf tasks s).task_flag
        = (taskAt tasks a).taskid &&& s.task_flag := by
    intro a ha hane
    rw [hflag']
    exact land_lor_of_disj _ _ _ (hdisj a ha _ hj0lt hane)
  refine ⟨⟨?_, ?_, ?_, ?_⟩, by rw [hDo]; exact hntr, ?_, hmono⟩
  · -- I1: every task before the new cursor is done under the new mask
    intro jj hjj
    rw [stateOf] at hjj ⊢
    simp only at hjj ⊢
    rw [hDo] at hjj
    by_cases hcase : jj < s.firsttask
    · exact tdone_mono _ _ _ (hI1 jj hcase) hmono
    · obtain ⟨k, hk, hjk, hdk⟩ := hscan jj (by omega) hjj
      rcases hdk with hdk | hdk
      · rw [hgetD] at hdk
        rw [← hjk] at hdk
        exact tdone_mono _ _ _ hdk hmono
      · rw [hjk, hdk]
        exact hdonej0
  · -- cursor stays within the array
    rw [stateOf]
    simp only
    rw [hDo]
    rw [hlendrop] at hftub
    omega
  · -- ntodo counts the tasks still incomplete under the new mask
    rw [stateOf]
    simp only
    have hsetEq : (Finset.range tasks.length).filter
        (fun i => (taskAt tasks i).taskid &&& (DoOneTask tf tasks s).task_flag = 0)
        = ((Finset.range tasks.length).filter
            (fun i => (taskAt tasks i).taskid &&& s.task_flag = 0)).erase
            (s.firsttask + Nat.find hPex) := by
      ext a
      simp only [Finset.mem_erase, Finset.mem_filter, Finset.mem_range]
      constructor
      · intro ⟨ha, haz⟩
        have hane : a ≠ s.firsttask + Nat.find hPex := by
          intro heq
          rw [heq] at haz
          exact hdonej0 haz
        rw [hother a ha hane] at haz
        exact ⟨hane, ha, haz⟩
      · intro ⟨hane, ha, haz⟩
        refine ⟨ha, ?_⟩
        rw [hother a ha hane]
        exact haz
    rw [hsetEq, Finset.card_erase_of_mem (by
      rw [Finset.mem_filter]
      exact ⟨Finset.mem_range.mpr hj0lt, hj0inc⟩)]
    rw [← hI3, hDo, hntr]
  · -- every done task has its full bit pattern in the new mask
    intro a ha hdone
    rw [stateOf] at hdone ⊢
    simp only at hdone ⊢
    by_cases hane : a = s.firsttask + Nat.find hPex
    · rw [hane, hflag']
      exact subset_lor_right _ _
    · rw [TDone, hother a ha hane] at hdone
      have := hI4 a ha hdone
      rw [hflag']
      exact subset_lor_of_subset _ _ _ this
  · -- returned status
    rw [hDo, hs]
    by_cases h1 : s.ntodo = 1
    · rw [if_pos (by omega), if_pos h1]
    · rw [if_neg (by omega), if_neg h1]

lemma sched_run (tasks : List MBTask) (tfs : Nat → Nat → Nat → Bool)
    (hbit : ∀ i, i < tasks.length → (taskAt tasks i).taskid ≠ 0)
    (hdisj : ∀ i, i < tasks.length → ∀ j, j < tasks.length → i ≠ j →
      (taskAt tasks i).taskid &&& (taskAt tasks j).taskid = 0)
    (hclosed : ∀ i, i < tasks.length →
      (taskAt tasks i).depend &&& orAllTaskid tasks = (taskAt tasks i).depend)
    (hacyc : ∀ S : Finset (Fin tasks.length), S.Nonempty →
      ∃ i ∈ S, ∀ j ∈ S,
        (taskAt tasks (i : Nat)).depend &&& (taskAt tasks (j : Nat)).taskid = 0)
    (htf : ∀ k i fl, TDepOk (taskAt tasks i) fl → tfs k i fl = true) :
    ∀ k, k ≤ tasks.length →
      SchedInv tasks (runTasks tfs tasks k) ∧
      (runTasks tfs tasks k).ntodo = tasks.length - k := by
  intro k
  induction k with
  | zero =>
    intro _
    refine ⟨⟨?_, ?_, ?_, ?_⟩, ?_⟩
    · intro jj hjj
      have : jj < 0 := hjj
      omega
    · exact Nat.zero_le _
    · show tasks.length = ((Finset.range tasks.length).filter
          (fun i => (taskAt tasks i).taskid &&& 0 = 0)).card
      rw [Finset.filter_true_of_mem (fun i _ => Nat.and_zero _), Finset.card_range]
    · intro i _ hdone
      exact absurd (Nat.and_zero _) hdone
    · rfl
  | succ k ih =>
    intro hk1
    obtain ⟨hinv, hntk⟩ := ih (by omega)
    have hnt : (runTasks tfs tasks k).ntodo ≠ 0 := by
      rw [hntk]
      omega
    obtain ⟨hinv', hntd, _, _⟩ := sched_step tasks (tfs k) (runTasks tfs tasks k)
      hbit hdisj hclosed hacyc (htf k) hinv hnt
    refine ⟨hinv', ?_⟩
    show (DoOneTask (tfs k) tasks (runTasks tfs tasks k)).ntodo
        = tasks.length - (k + 1)
    rw [hntd, hntk]
    omega

/-- C1: for every non-empty task list with nonzero, pairwise-disjoint
task bits, dependencies drawn only from the tasks' own bits, an acyclic
dependency graph (every non-empty subset contains a task with no
dependency inside the subset), and task operations that always report
work done once their dependencies are complete, iterating
`MeshBlock::DoOneTask` from the reset state marks every task complete
after exactly `ntask` calls, and that final successful call returns
`complete`. -/
theorem C1_scheduler_terminates (tasks : List MBTask)
    (tfs : Nat → Nat → Nat → Bool)
    (hne : tasks ≠ [])
    (hbit : ∀ i, i < tasks.length → (taskAt tasks i).taskid ≠ 0)
    (hdisj : ∀ i, i < tasks.length → ∀ j, j < tasks.length → i ≠ j →
      (taskAt tasks i).taskid &&& (taskAt tasks j).taskid = 0)
    (hclosed : ∀ i, i < tasks.length →
      (taskAt tasks i).depend &&& orAllTaskid tasks = (taskAt tasks i).depend)
    (hacyc : ∀ S : Finset (Fin tasks.length), S.Nonempty →
      ∃ i ∈ S, ∀ j ∈ S,
        (taskAt tasks (i : Nat)).depend &&& (taskAt tasks (j : Nat)).taskid = 0)
    (htf : ∀ k i fl, TDepOk (taskAt tasks i) fl → tfs k i fl = true) :
    (runTasks tfs tasks tasks.length).ntodo = 0 ∧
    (∀ i, i < tasks.length →
      (taskAt tasks i).taskid &&& (runTasks tfs tasks tasks.length).task_flag
        = (taskAt tasks i).taskid) ∧
    (callResult tfs tasks (tasks.length - 1)).status = Tlstatus.complete := by
  have hn1 : 1 ≤ tasks.length := by
    have : tasks.length ≠ 0 := fun h => hne (List.eq_nil_of_length_eq_zero h)
    omega
  have hrun := sched_run tasks tfs hbit hdisj hclosed hacyc htf
  obtain ⟨hinvN, hntN⟩ := hrun tasks.length (le_refl _)
  have hnt0 : (runTasks tfs tasks tasks.length).ntodo = 0 := by
    rw [hntN]
    omega
  obtain ⟨_, _, hI3, hI4⟩ := hinvN
  have hempty : (Finset.range tasks.length).filter
      (fun i => (taskAt tasks i).taskid
        &&& (runTasks tfs tasks tasks.length).task_flag = 0) = ∅ := by
    apply Finset.card_eq_zero.mp
    rw [← hI3]
    exact hnt0
  refine ⟨hnt0, ?_, ?_⟩
  · intro i hi
    have hdone : TDone (taskAt tasks i) (runTasks tfs tasks tasks.length).task_flag := by
      intro hz
      have : i ∈ (Finset.range tasks.length).filter
          (fun i => (taskAt tasks i).taskid
            &&& (runTasks tfs tasks tasks.length).task_flag = 0) := by
        rw [Finset.mem_filter]
        exact ⟨Finset.mem_range.mpr hi, hz⟩
      rw [hempty] at this
      exact absurd this (Finset.not_mem_empty i)
    exact hI4 i hi hdone
  · obtain ⟨hinvP, hntP⟩ := hrun (tasks.length - 1) (by omega)
    have hntP1 : (runTasks tfs tasks (tasks.length - 1)).ntodo ≠ 0 := by
      rw [hntP]
      omega
    obtain ⟨_, _, hstat, _⟩ := sched_step tasks (tfs (tasks.length - 1))
      (runTasks tfs tasks (tasks.length - 1)) hbit hdisj hclosed hacyc
      (htf (tasks.length - 1)) hinvP hntP1
    rw [callResult, hstat, if_pos (by rw [hntP]; omega)]

/-- C1 witness: two tasks with bits 1 and 2, the second depending on the
first, and operations that always succeed: after two calls both tasks
are complete and the second call returned `complete`. -/
theorem C1_witness :
    ([⟨1, 0⟩, ⟨2, 1⟩] : List MBTask) ≠ [] ∧
      ((runTasks (fun _ _ _ => true) [⟨1, 0⟩, ⟨2, 1⟩]
          ([⟨1, 0⟩, ⟨2, 1⟩] : List MBTask).length).ntodo = 0 ∧
        (∀ i, i < ([⟨1, 0⟩, ⟨2, 1⟩] : List MBTask).length →
          (taskAt [⟨1, 0⟩, ⟨2, 1⟩] i).taskid
              &&& (runTasks (fun _ _ _ => true) [⟨1, 0⟩, ⟨2, 1⟩]
                ([⟨1, 0⟩, ⟨2, 1⟩] : List MBTask).length).task_flag
            = (taskAt [⟨1, 0⟩, ⟨2, 1⟩] i).taskid) ∧
        (callResult (fun _ _ _ => true) [⟨1, 0⟩, ⟨2, 1⟩]
          (([⟨1, 0⟩, ⟨2, 1⟩] : List MBTask).length - 1)).status
            = Tlstatus.complete) :=
  ⟨by decide,
    C1_scheduler_terminates [⟨1, 0⟩, ⟨2, 1⟩] (fun _ _ _ => true)
      (by decide) (by decide) (by decide) (by decide) (by decide)
      (fun _ _ _ _ => rfl)⟩

lemma doOneTask_flag_mono (tf : Nat → Nat → Bool) (tasks : List MBTask)
    (s : TSState) :
    s.task_flag &&& (DoOneTask tf tasks s).task_flag = s.task_flag := by
  rw [DoOneTask]
  by_cases h : s.ntodo = 0
  · rw [if_pos h]
    exact Nat.and_self _
  · rw [if_neg h]
    exact doTaskLoop_flag_mono tf s.task_flag s.ntodo _ s.firsttask 0 s.firsttask

lemma runTasks_flag_mono (tfs : Nat → Nat → Nat → Bool) (tasks : List MBTask) :
    ∀ k m, k ≤ m →
      (runTasks tfs tasks k).task_flag &&& (runTasks tfs tasks m).task_flag
        = (runTasks tfs tasks k).task_flag := by
  intro k m hkm
  induction m, hkm using Nat.le_induction with
  | base => exact Nat.and_self _
  | succ n hn ih =>
    have hstep : (runTasks tfs tasks n).task_flag
        &&& (runTasks tfs tasks (n + 1)).task_flag
        = (runTasks tfs tasks n).task_flag :=
      doOneTask_flag_mono (tfs n) tasks (runTasks tfs tasks n)
    exact land_subset_trans _ _ _ ih hstep

/-- C3: throughout any sequence of `DoOneTask` calls within one round, a
task's operation is invoked only in a state where its dependency bitmask
is contained in the completed mask (and its own bit is not yet set); and
once a task's bit is in the completed mask at the start of some call, it
is never invoked again in that or any later call of the round. -/
theorem C3_invocation_invariants (tfs : Nat → Nat → Nat → Bool)
    (tasks : List MBTask) :
    (∀ k m, m ∈ (callResult tfs tasks k).invoked →
      m < tasks.length ∧
      TDepOk (taskAt tasks m) (runTasks tfs tasks k).task_flag ∧
      ¬TDone (taskAt tasks m) (runTasks tfs tasks k).task_flag) ∧
    (∀ k m i, k ≤ m →
      TDone (taskAt tasks i) (runTasks tfs tasks k).task_flag →
      i ∉ (callResult tfs tasks m).invoked) := by
  have htrace : ∀ k m, m ∈ (callResult tfs tasks k).invoked →
      m < tasks.length ∧
      TDepOk (taskAt tasks m) (runTasks tfs tasks k).task_flag ∧
      ¬TDone (taskAt tasks m) (runTasks tfs tasks k).task_flag := by
    intro k m hm
    rw [callResult, DoOneTask] at hm
    by_cases h : (runTasks tfs tasks k).ntodo = 0
    · rw [if_pos h] at hm
      exact absurd hm (List.not_mem_nil m)
    · rw [if_neg h] at hm
      obtain ⟨kk, hkk, hmk, hnd, hdep⟩ :=
        doTaskLoop_trace (tfs k) (runTasks tfs tasks k).task_flag
          (runTasks tfs tasks k).ntodo _ (runTasks tfs tasks k).firsttask 0
          (runTasks tfs tasks k).firsttask m hm
      rw [taskAt_drop] at hnd hdep
      have hlen : (tasks.drop (runTasks tfs tasks k).firsttask).length
          = tasks.length - (runTasks tfs tasks k).firsttask :=
        List.length_drop _ _
      subst hmk
      exact ⟨by omega, hdep, hnd⟩
  refine ⟨htrace, ?_⟩
  intro k m i hkm hdone hmem
  obtain ⟨_, _, hnd⟩ := htrace m i hmem
  exact hnd (tdone_mono _ _ _ hdone (runTasks_flag_mono tfs tasks k m hkm))

/-- C3 witness: with one dependency-free task (bit 1) and an operation
that always succeeds, call 0 invokes the task in a state with empty mask
and satisfied dependencies; after its bit is set, call 1 does not invoke
it again. -/
theorem C3_witness :
    (0 ∈ (callResult (fun _ _ _ => true) [⟨1, 0⟩] 0).invoked ∧
      0 < ([⟨1, 0⟩] : List MBTask).length ∧
      TDepOk (taskAt [⟨1, 0⟩] 0)
        (runTasks (fun _ _ _ => true) [⟨1, 0⟩] 0).task_flag ∧
      ¬TDone (taskAt [⟨1, 0⟩] 0)
        (runTasks (fun _ _ _ => true) [⟨1, 0⟩] 0).task_flag) ∧
    (TDone (taskAt [⟨1, 0⟩] 0)
        (runTasks (fun _ _ _ => true) [⟨1, 0⟩] 1).task_flag ∧
      0 ∉ (callResult (fun _ _ _ => true) [⟨1, 0⟩] 1).invoked) := by
  constructor
  · have hm : 0 ∈ (callResult (fun _ _ _ => true) [⟨1, 0⟩] 0).invoked := by decide
    obtain ⟨h1, h2, h3⟩ :=
      (C3_invocation_invariants (fun _ _ _ => true) [⟨1, 0⟩]).1 0 0 hm
    exact ⟨hm, h1, h2, h3⟩
  · have hd : TDone (taskAt [⟨1, 0⟩] 0)
        (runTasks (fun _ _ _ => true) [⟨1, 0⟩] 1).task_flag := by decide
    exact ⟨hd,
      (C3_invocation_invariants (fun _ _ _ => true) [⟨1, 0⟩]).2 1 1 0
        (le_refl 1) hd⟩
